import Mathlib

/-!
# Shard watcher (`shards/watcher.go`)

A shallow embedding of `versionFromPath`, `shardWatcher.scan` and
`shardWatcher.Close`, step relations for the two loops of `watch` and for the
bounded loads at the end of `scan`, and the properties of the shard watcher
that are settled on them.

Conventions of the embedding.

* A Go `string` is a sequence of bytes; a byte is a natural number below 256.
  All positions and slices are byte positions, as in Go.
* A Go runtime panic is the result `none`.
* Go's `int` is the 64-bit signed integer; the only place where its width
  matters is the range check of `strconv.Atoi`.
* A goroutine is a set of steps of a step relation; a send on a full channel
  and a receive on an empty channel are steps that cannot be taken.
* A Go `map[string]V` is an association list with pairwise distinct keys.
  Go leaves the iteration order of `range` over a map unspecified; the
  embedding iterates in the order of the association list, and every
  statement about the paths handed to the loader is a statement about
  membership and multiplicity, never about that order.
-/

namespace Shards

/-- A Go string: its bytes. -/
abbrev GoString := List Nat

/-- The bytes of an ASCII string literal. -/
def ascii (s : String) : GoString := s.data.map Char.toNat

/-- Byte `'_'`. -/
abbrev cUnderscore : Nat := 95
/-- Byte `'.'`. -/
abbrev cDot : Nat := 46
/-- Byte `'v'`. -/
abbrev cV : Nat := 118
/-- Byte `'0'`. -/
abbrev cZero : Nat := 48
/-- Byte `'+'`. -/
abbrev cPlus : Nat := 43
/-- Byte `'-'`. -/
abbrev cMinus : Nat := 45

/-! ## Standard library functions used by `versionFromPath` -/

/-- `strings.Index(s, sep)` for a one-byte separator `c`: the position of the
first occurrence of `c` in `s`, or `-1`. -/
def stringsIndex (c : Nat) : GoString → Int
  | [] => -1
  | x :: xs =>
    if x = c then 0
    else
      let i := stringsIndex c xs
      if i < 0 then -1 else i + 1

/-- `strings.LastIndex(s, sep)` for a one-byte separator `c`: the position of
the last occurrence of `c` in `s`, or `-1`. -/
def stringsLastIndex (c : Nat) : GoString → Int
  | [] => -1
  | x :: xs =>
    let i := stringsLastIndex c xs
    if i < 0 then (if x = c then 0 else -1) else i + 1

/-- The slice expression `s[lo:hi]` on a string: it panics unless
`0 ≤ lo ≤ hi ≤ len(s)`. -/
def slice (s : GoString) (lo hi : Int) : Option GoString :=
  if 0 ≤ lo ∧ lo ≤ hi ∧ hi ≤ (s.length : Int) then
    some ((s.drop lo.toNat).take (hi.toNat - lo.toNat))
  else none

/-- Width of Go's `int`. -/
def intSize : Nat := 64

/-- The value of a sequence of decimal digit bytes, most significant first
(the accumulation `n = n*10 + (ch - '0')` of `strconv`). -/
def digitsValue (ds : GoString) : Nat :=
  ds.foldl (fun n ch => n * 10 + (ch - cZero)) 0

/-- Whether a byte is a decimal digit. -/
def isDigit (ch : Nat) : Bool := decide (cZero ≤ ch) && decide (ch ≤ cZero + 9)

/-- `strconv.Atoi`: an optional sign `+` or `-`, then at least one decimal
digit and nothing else; the value must fit in `int`. `none` is the non-nil
error result. -/
def atoi (s : GoString) : Option Int :=
  match s with
  | [] => none
  | c :: rest =>
    let neg : Bool := decide (c = cMinus)
    let ds : GoString := if c = cMinus ∨ c = cPlus then rest else s
    if ds = [] then none
    else if ds.all isDigit then
      let n := digitsValue ds
      if neg then
        (if n ≤ 2 ^ (intSize - 1) then some (-(n : Int)) else none)
      else
        (if n < 2 ^ (intSize - 1) then some (n : Int) else none)
    else none

/-- `strconv.Itoa` on a non-negative value: the decimal digits, most
significant first, without leading zeros (`"0"` for zero). -/
def decimal (v : Nat) : GoString :=
  match Nat.digits 10 v with
  | [] => [cZero]
  | d :: ds => (d :: ds).reverse.map (fun x => cZero + x)

/-! ## `versionFromPath` -/

/-- The function `versionFromPath` of `watcher.go`. The result `none` is the
runtime panic of the slice expression `path[und+2 : dot]`. -/
def versionFromPath (path : GoString) : Option (GoString × Int) :=
  let und := stringsLastIndex cUnderscore path
  if und < 0 then some (path, 0)
  else
    let dot := stringsIndex cDot (path.drop und.toNat)
    if dot < 0 then some (path, 0)
    else
      let dot := dot + und
      match slice path (und + 2) dot with
      | none => none
      | some digits =>
        match atoi digits with
        | none => some (path, 0)
        | some version => some (path.take und.toNat, version)

/-! ## Maps -/

/-- A modification time, as returned by `fi.ModTime()`; the code only compares
two of them with `!=`. -/
abbrev Time := Nat

/-- A Go `map[string]V`: an association list. -/
abbrev GoMap (ν : Type) := List (GoString × ν)

/-- The lookup `v, ok := m[k]`; `none` stands for `ok == false`. -/
def mapLookup {ν : Type} : GoMap ν → GoString → Option ν
  | [], _ => none
  | (k', v) :: m, k => if k' = k then some v else mapLookup m k

/-- The assignment `m[k] = v`. -/
def mapSet {ν : Type} (m : GoMap ν) (k : GoString) (v : ν) : GoMap ν :=
  (k, v) :: m.filter (fun e => !decide (e.1 = k))

/-- The statement `delete(m, k)`. -/
def mapDelete {ν : Type} (m : GoMap ν) (k : GoString) : GoMap ν :=
  m.filter (fun e => !decide (e.1 = k))

/-- The keys of a map, in iteration order. -/
def mapKeys {ν : Type} (m : GoMap ν) : List GoString := m.map Prod.fst

/-- The index expression `latest[name]` on a `map[string]int`: the zero value
for an absent key. -/
def mapIndex (m : GoMap Int) (k : GoString) : Int := (mapLookup m k).getD 0

/-! ## `scan` -/

/-- First loop of `scan`: the largest version per logical name among the
listed files whose version does not exceed `supported`
(`zoekt.IndexFormatVersion`). -/
def latestLoop (supported : Int) : List GoString → GoMap Int → Option (GoMap Int)
  | [], latest => some latest
  | fn :: fs, latest =>
    match versionFromPath fn with
    | none => none
    | some (name, version) =>
      if version > supported then latestLoop supported fs latest
      else if mapIndex latest name < version then
        latestLoop supported fs (mapSet latest name version)
      else latestLoop supported fs latest

/-- Second loop of `scan`: the modification times of the listed files that
pass the version filter `latest[name] == version` and can be statted. -/
def statLoop (latest : GoMap Int) (lstat : GoString → Option Time) :
    List GoString → GoMap Time → Option (GoMap Time)
  | [], ts => some ts
  | fn :: fs, ts =>
    match versionFromPath fn with
    | none => none
    | some (name, version) =>
      if mapIndex latest name ≠ version then statLoop latest lstat fs ts
      else
        match lstat fn with
        | none => statLoop latest lstat fs ts
        | some mtime => statLoop latest lstat fs (mapSet ts fn mtime)

/-- Third loop of `scan`, over the entries of `ts`: a path that is new or
whose time differs is appended to `toLoad` and recorded in `s.timestamps`. -/
def loadLoop : List (GoString × Time) → List GoString × GoMap Time →
    List GoString × GoMap Time
  | [], st => st
  | (k, mtime) :: rest, (toLoad, timestamps) =>
    match mapLookup timestamps k with
    | none => loadLoop rest (toLoad ++ [k], mapSet timestamps k mtime)
    | some t =>
      if t ≠ mtime then loadLoop rest (toLoad ++ [k], mapSet timestamps k mtime)
      else loadLoop rest (toLoad, timestamps)

/-- Fourth loop of `scan`, over the keys `s.timestamps` has when the loop
starts (the loop deletes only the key it is visiting): a key absent from `ts`
is appended to `toDrop` and deleted from `s.timestamps`. -/
def dropLoop (ts : GoMap Time) : List GoString → List GoString × GoMap Time →
    List GoString × GoMap Time
  | [], st => st
  | k :: rest, (toDrop, timestamps) =>
    match mapLookup ts k with
    | none => dropLoop ts rest (toDrop ++ [k], mapDelete timestamps k)
    | some _ => dropLoop ts rest (toDrop, timestamps)

/-- What one call of `scan` leaves behind. -/
structure ScanResult where
  /-- Whether `scan` returned a non-nil error. -/
  err : Bool
  /-- The value of `s.timestamps` when `scan` returns. -/
  timestamps : GoMap Time
  /-- The paths passed to `s.loader.drop`, in call order. -/
  toDrop : List GoString
  /-- The paths passed to `s.loader.load`, in dispatch order. -/
  toLoad : List GoString
  deriving DecidableEq

/-- The map `ts` that the first two loops of `scan` build from the listing. -/
def scanTimes (supported : Int) (fs : List GoString) (lstat : GoString → Option Time) :
    Option (GoMap Time) :=
  match latestLoop supported fs [] with
  | none => none
  | some latest => statLoop latest lstat fs []

/-- The method `shardWatcher.scan`. Its environment is the result `glob` of
`filepath.Glob` (`none` for an error) and the result `lstat` of `os.Lstat`
followed by `ModTime` (`none` for an error); `timestamps` is `s.timestamps`
on entry. A listing of `filepath.Glob` repeats no path, so a scan stats each
path at most once and `lstat` is a function of the path. The result `none`
is a panic. -/
def scan (supported : Int) (glob : Option (List GoString))
    (lstat : GoString → Option Time) (timestamps : GoMap Time) : Option ScanResult :=
  match glob with
  | none => some ⟨true, timestamps, [], []⟩
  | some fs =>
    match scanTimes supported fs lstat with
    | none => none
    | some ts =>
      let loaded := loadLoop ts ([], timestamps)
      let dropped := dropLoop ts (mapKeys loaded.2) ([], loaded.2)
      some ⟨false, dropped.2, dropped.1, loaded.1⟩

/-- The version filter of the second loop of `scan`: the version of `fn`
equals the version recorded for its logical name in `latest`. -/
def passes (latest : GoMap Int) (fn : GoString) : Bool :=
  match versionFromPath fn with
  | some (name, version) => decide (mapIndex latest name = version)
  | none => false

/-- Whether `scan`, given the listing `fs`, selects the file `fn`: the file
passes the version filter of the second loop for the map `latest` that the
first loop built from `fs`. -/
def selected (supported : Int) (fs : List GoString) (fn : GoString) : Bool :=
  match latestLoop supported fs [] with
  | some latest => passes latest fn
  | none => false

/-- A call on the `shardLoader`. -/
inductive Call where
  | drop (filename : GoString)
  | load (filename : GoString)
  deriving DecidableEq, Repr

/-- The path a loader call is about. -/
def Call.filename : Call → GoString
  | .drop f => f
  | .load f => f

/-- The loader calls of one scan: the drops, then the loads. -/
def ScanResult.calls (r : ScanResult) : List Call :=
  r.toDrop.map Call.drop ++ r.toLoad.map Call.load

/-- One observation of the watched directory by a scan. -/
structure Dir where
  /-- The result of `filepath.Glob`. -/
  glob : Option (List GoString)
  /-- The result of `os.Lstat` and `ModTime`. -/
  lstat : GoString → Option Time

/-- The state of a `shardWatcher` between scans: its field `timestamps`, and
in place of its field `loader` the calls the loader has received. -/
structure shardWatcher where
  /-- The field `timestamps`. -/
  timestamps : GoMap Time
  /-- All loader calls issued so far, oldest first; the calls of one scan are
  its drops followed by its loads. -/
  trace : List Call
  deriving DecidableEq

/-- The watcher built by `NewDirectoryWatcher`, before its first scan. -/
def shardWatcher.init : shardWatcher := ⟨[], []⟩

/-- A sequence of scans, one per observation of the directory. The error
result of a scan is ignored, as in the rescan loop of `watch`; a scan with an
error changes nothing. A panic ends the sequence without a result. -/
def runScans (supported : Int) : List Dir → shardWatcher → Option shardWatcher
  | [], w => some w
  | d :: ds, w =>
    match scan supported d.glob d.lstat w.timestamps with
    | none => none
    | some r => runScans supported ds ⟨r.timestamps, w.trace ++ r.calls⟩

/-- The most recent call about `p` in a trace, if any. -/
def lastCall (trace : List Call) (p : GoString) : Option Call :=
  trace.reverse.find? (fun c => decide (c.filename = p))

/-! ## The text `versionFromPath` parses -/

/-- The text `path[und+2 : dot]` that `versionFromPath` passes to
`strconv.Atoi`: `none` when the function returns before the slice (no `_`, or
no `.` after it) or panics in it. -/
def versionText (path : GoString) : Option GoString :=
  let und := stringsLastIndex cUnderscore path
  if und < 0 then none
  else
    let dot := stringsIndex cDot (path.drop und.toNat)
    if dot < 0 then none
    else slice path (und + 2) (dot + und)

/-! ## `Close` -/

/-- A channel, by its identity. -/
abbrev Chan := Nat

/-- What `Close` reads and writes: the field `quit` of the watcher (`none` is
`nil`), the set of channels that are closed, and the `close` operations
executed so far, oldest first. -/
structure QuitState where
  /-- The field `quit`. -/
  quit : Option Chan
  /-- The channels that are closed. -/
  closed : List Chan
  /-- Every `close(ch)` executed so far. -/
  closes : List Chan
  deriving DecidableEq

/-- The method `shardWatcher.Close`. The result is the returned `error`
(`none` is `nil`) and the new state; no result is the panic of `close` on a
closed channel. -/
def Close (sw : QuitState) : Option (Option String × QuitState) :=
  match sw.quit with
  | some ch =>
    if ch ∈ sw.closed then none
    else some (none, ⟨none, ch :: sw.closed, sw.closes ++ [ch]⟩)
  | none => some (none, sw)

/-- A number of `Close` calls one after the other: the errors they return, in
call order, and the final state. -/
def closeCalls : Nat → QuitState → Option (List (Option String) × QuitState)
  | 0, sw => some ([], sw)
  | n + 1, sw =>
    match Close sw with
    | none => none
    | some (err, sw') =>
      match closeCalls n sw' with
      | none => none
      | some (errs, sw'') => some (err :: errs, sw'')

/-! ## The two loops of `watch` -/

/-- The capacity of the channel `signal`, from `make(chan struct{}, 1)`. -/
def signalCap : Nat := 1

/-- The state of the channel `signal` and of the two goroutines of `watch`. -/
structure WatchState where
  /-- The number of values buffered in `signal`: the pending rescan requests. -/
  signal : Nat
  /-- Whether the event loop has returned, after `close(signal)`. -/
  signalClosed : Bool
  /-- The number of calls of `s.scan()` in progress. -/
  scanning : Nat
  /-- The number of calls of `s.scan()` the rescan loop has started. -/
  started : Nat
  /-- Whether the rescan loop has ended. -/
  rescanDone : Bool
  deriving DecidableEq

/-- The state in which `watch` starts its two goroutines. -/
def WatchState.init : WatchState := ⟨0, false, 0, 0, false⟩

/-- The steps of the two goroutines of `watch`. -/
inductive WatchAction where
  /-- The event loop receives from `watcher.Events` and tries to send on
  `signal` without blocking. -/
  | event
  /-- The event loop receives from `watcher.Errors`. -/
  | error
  /-- The event loop receives from `quitter`, closes `signal` and returns. -/
  | quit
  /-- The rescan loop receives from `signal` and calls `s.scan()`. -/
  | startScan
  /-- The call of `s.scan()` in the rescan loop returns. -/
  | finishScan
  /-- The rescan loop finds `signal` closed and empty and ends. -/
  | endRescan
  deriving DecidableEq

/-- One step of `watch`; no result when the step cannot be taken in the
state. The rescan loop is one goroutine that calls `s.scan()` in its body, so
it receives from `signal` only when no call is in progress. -/
def watchStep (s : WatchState) : WatchAction → Option WatchState
  | .event =>
    if s.signalClosed then none
    else if s.signal < signalCap then some { s with signal := s.signal + 1 }
    else some s
  | .error => if s.signalClosed then none else some s
  | .quit => if s.signalClosed then none else some { s with signalClosed := true }
  | .startScan =>
    if s.rescanDone = false ∧ s.scanning = 0 ∧ 0 < s.signal then
      some { s with signal := s.signal - 1, scanning := s.scanning + 1,
                    started := s.started + 1 }
    else none
  | .finishScan =>
    if 0 < s.scanning then some { s with scanning := s.scanning - 1 } else none
  | .endRescan =>
    if s.rescanDone = false ∧ s.scanning = 0 ∧ s.signal = 0 ∧ s.signalClosed = true then
      some { s with rescanDone := true }
    else none

/-- A sequence of steps of `watch`. -/
def watchRun : List WatchAction → WatchState → Option WatchState
  | [], s => some s
  | a :: as, s =>
    match watchStep s a with
    | none => none
    | some s' => watchRun as s'

/-! ## The bounded loads of `scan` -/

/-- The state of the end of `scan`, from `throttle := make(...)` on. -/
structure LoadState where
  /-- The number of values buffered in `throttle`. -/
  throttle : Nat
  /-- The elements of `toLoad` the dispatch loop has not reached. -/
  pending : List GoString
  /-- The goroutines that have not returned from `s.loader.load(k)`. -/
  loading : List GoString
  /-- The goroutines that returned from `load` and have not yet received
  from `throttle`. -/
  releasing : List GoString
  /-- The paths whose call of `load` has returned. -/
  loaded : List GoString
  /-- The counter `i` of the final loop. -/
  filled : Nat
  /-- Whether `scan` has returned. -/
  returned : Bool
  deriving DecidableEq

/-- The state after `throttle := make(chan struct{}, runtime.GOMAXPROCS(0))`. -/
def LoadState.init (toLoad : List GoString) : LoadState :=
  ⟨0, toLoad, [], [], [], 0, false⟩

/-- The steps of `scan` and of the goroutines of its dispatch loop. -/
inductive LoadAction where
  /-- The dispatch loop sends on `throttle` and starts the goroutine of the
  next element of `toLoad`. -/
  | dispatch
  /-- The call `s.loader.load(k)` of a goroutine returns. -/
  | loadReturns (k : GoString)
  /-- A goroutine receives from `throttle` and ends. -/
  | release (k : GoString)
  /-- The final loop sends on `throttle`. -/
  | fill
  /-- The final loop is over and `scan` returns. -/
  | ret
  deriving DecidableEq

/-- One step of the end of `scan`, for a channel `throttle` of capacity
`cap`; no result when the step cannot be taken in the state: a send on a
full channel and a receive on an empty one block. -/
def throttleStep (cap : Nat) (s : LoadState) : LoadAction → Option LoadState
  | .dispatch =>
    match s.pending with
    | [] => none
    | t :: rest =>
      if s.throttle < cap then
        some { s with throttle := s.throttle + 1, pending := rest, loading := t :: s.loading }
      else none
  | .loadReturns k =>
    if k ∈ s.loading then
      some { s with loading := s.loading.erase k, releasing := k :: s.releasing,
                    loaded := k :: s.loaded }
    else none
  | .release k =>
    if k ∈ s.releasing ∧ 0 < s.throttle then
      some { s with throttle := s.throttle - 1, releasing := s.releasing.erase k }
    else none
  | .fill =>
    if s.pending = [] ∧ s.returned = false ∧ s.filled < cap ∧ s.throttle < cap then
      some { s with throttle := s.throttle + 1, filled := s.filled + 1 }
    else none
  | .ret =>
    if s.pending = [] ∧ s.returned = false ∧ s.filled = cap then
      some { s with returned := true }
    else none

/-- A sequence of steps of the end of `scan`. -/
def throttleRun (cap : Nat) : List LoadAction → LoadState → Option LoadState
  | [], s => some s
  | a :: as, s =>
    match throttleStep cap s a with
    | none => none
    | some s' => throttleRun cap as s'

/-! ## Auxiliary definitions for the proofs -/

/-- The keys of a map are pairwise distinct: no key is counted twice. -/
def WellFormed {ν : Type} (m : GoMap ν) : Prop := ∀ p, (mapKeys m).count p ≤ 1

/-- The body of the first loop of `scan`, for a file that resolved to
`(name, version)`. -/
def latestStep (supported : Int) (latest : GoMap Int) (name : GoString) (version : Int) :
    GoMap Int :=
  if version > supported then latest
  else if mapIndex latest name < version then mapSet latest name version
  else latest

/-- The body of the second loop of `scan`, for a file that resolved. -/
def statStep (latest : GoMap Int) (lstat : GoString → Option Time) (ts : GoMap Time)
    (fn : GoString) : GoMap Time :=
  if passes latest fn then
    match lstat fn with
    | none => ts
    | some mtime => mapSet ts fn mtime
  else ts

/-- The body of the third loop of `scan`. -/
def loadStep (st : List GoString × GoMap Time) (e : GoString × Time) :
    List GoString × GoMap Time :=
  if mapLookup st.2 e.1 = some e.2 then st else (st.1 ++ [e.1], mapSet st.2 e.1 e.2)

/-- The body of the fourth loop of `scan`. -/
def dropStep (ts : GoMap Time) (st : List GoString × GoMap Time) (k : GoString) :
    List GoString × GoMap Time :=
  if mapLookup ts k = none then (st.1 ++ [k], mapDelete st.2 k) else st

/-! ## Lemmas on the string functions -/

theorem stringsIndex_ge (c : Nat) (s : GoString) : -1 ≤ stringsIndex c s := by
  induction s with
  | nil => simp [stringsIndex]
  | cons x xs ih =>
    simp only [stringsIndex]
    split_ifs <;> omega

theorem stringsLastIndex_ge (c : Nat) (s : GoString) : -1 ≤ stringsLastIndex c s := by
  induction s with
  | nil => simp [stringsLastIndex]
  | cons x xs ih =>
    simp only [stringsLastIndex]
    split_ifs <;> omega

theorem stringsIndex_of_not_mem (c : Nat) (s : GoString) (h : c ∉ s) :
    stringsIndex c s = -1 := by
  induction s with
  | nil => simp [stringsIndex]
  | cons x xs ih =>
    simp only [List.mem_cons, not_or] at h
    have hx : ¬ x = c := fun e => h.1 e.symm
    simp [stringsIndex, hx, ih h.2]

theorem stringsLastIndex_of_not_mem (c : Nat) (s : GoString) (h : c ∉ s) :
    stringsLastIndex c s = -1 := by
  induction s with
  | nil => simp [stringsLastIndex]
  | cons x xs ih =>
    simp only [List.mem_cons, not_or] at h
    have hx : ¬ x = c := fun e => h.1 e.symm
    simp [stringsLastIndex, hx, ih h.2]

/-- The first occurrence: no `c` before it. -/
theorem stringsIndex_append_cons (c : Nat) (s t : GoString) (h : c ∉ s) :
    stringsIndex c (s ++ c :: t) = (s.length : Int) := by
  induction s with
  | nil => simp [stringsIndex]
  | cons x xs ih =>
    simp only [List.mem_cons, not_or] at h
    have hx : ¬ x = c := fun e => h.1 e.symm
    have e : stringsIndex c (x :: (xs ++ c :: t)) =
        if stringsIndex c (xs ++ c :: t) < 0 then -1
        else stringsIndex c (xs ++ c :: t) + 1 := by
      simp [stringsIndex, hx]
    rw [List.cons_append, e, ih h.2, List.length_cons]
    split_ifs <;> omega

/-- The last occurrence: no `c` after it. -/
theorem stringsLastIndex_append_cons (c : Nat) (s t : GoString) (h : c ∉ t) :
    stringsLastIndex c (s ++ c :: t) = (s.length : Int) := by
  induction s with
  | nil => simp [stringsLastIndex, stringsLastIndex_of_not_mem c t h]
  | cons x xs ih =>
    have e : stringsLastIndex c (x :: (xs ++ c :: t)) =
        if stringsLastIndex c (xs ++ c :: t) < 0 then (if x = c then 0 else -1)
        else stringsLastIndex c (xs ++ c :: t) + 1 := by
      simp [stringsLastIndex]
    rw [List.cons_append, e, ih, List.length_cons]
    split_ifs <;> omega

theorem stringsLastIndex_nonneg_of_mem (c : Nat) (s : GoString) (h : c ∈ s) :
    0 ≤ stringsLastIndex c s := by
  induction s with
  | nil => simp at h
  | cons x xs ih =>
    simp only [stringsLastIndex]
    have := stringsLastIndex_ge c xs
    rcases List.mem_cons.1 h with h | h
    · subst h
      split_ifs <;> omega
    · have := ih h
      split_ifs <;> omega

theorem stringsIndex_nonneg_of_mem (c : Nat) (s : GoString) (h : c ∈ s) :
    0 ≤ stringsIndex c s := by
  induction s with
  | nil => simp at h
  | cons x xs ih =>
    simp only [stringsIndex]
    have := stringsIndex_ge c xs
    rcases List.mem_cons.1 h with h | h
    · subst h
      simp
    · have := ih h
      split_ifs <;> omega

/-- A found last occurrence splits the string around it. -/
theorem stringsLastIndex_split (c : Nat) (s : GoString) (h : 0 ≤ stringsLastIndex c s) :
    ∃ a b, s = a ++ c :: b ∧ c ∉ b ∧ stringsLastIndex c s = (a.length : Int) := by
  induction s with
  | nil => simp [stringsLastIndex] at h
  | cons x xs ih =>
    by_cases hi : stringsLastIndex c xs < 0
    · have hx : x = c := by
        by_contra hx
        simp [stringsLastIndex, hi, hx] at h
      have hmem : c ∉ xs := fun hm => by
        have := stringsLastIndex_nonneg_of_mem c xs hm
        omega
      exact ⟨[], xs, by simp [hx], hmem, by simp [stringsLastIndex, hi, hx]⟩
    · obtain ⟨a, b, hab, hb, hl⟩ := ih (by omega)
      refine ⟨x :: a, b, by simp [hab], hb, ?_⟩
      simp only [stringsLastIndex, hl, List.length_cons]
      split_ifs <;> omega

/-- A found first occurrence splits the string around it. -/
theorem stringsIndex_split (c : Nat) (s : GoString) (h : 0 ≤ stringsIndex c s) :
    ∃ a b, s = a ++ c :: b ∧ c ∉ a ∧ stringsIndex c s = (a.length : Int) := by
  have hm : c ∈ s := by
    by_contra hm
    rw [stringsIndex_of_not_mem c s hm] at h
    omega
  obtain ⟨a, b, hab, ha⟩ := List.eq_append_cons_of_mem hm
  exact ⟨a, b, hab, ha, by rw [hab, stringsIndex_append_cons c a b ha]⟩

/-! ## Lemmas on `strconv` -/

theorem digitsValue_reverse_map (ds : List Nat) :
    digitsValue (ds.reverse.map (fun x => cZero + x)) = Nat.ofDigits 10 ds := by
  induction ds with
  | nil => simp [digitsValue]
  | cons d ds ih =>
    unfold digitsValue at ih ⊢
    simp only [List.reverse_cons, List.map_append, List.map_cons, List.map_nil,
      List.foldl_append, List.foldl_cons, List.foldl_nil, ih, Nat.ofDigits_cons]
    omega

theorem digitsValue_decimal (v : Nat) : digitsValue (decimal v) = v := by
  unfold decimal
  split
  · rename_i h
    have : v = 0 := by
      by_contra hv
      exact (Nat.digits_ne_nil_iff_ne_zero.2 hv) h
    simp [digitsValue, this]
  · rename_i d ds h
    rw [digitsValue_reverse_map, ← h, Nat.ofDigits_digits]

theorem decimal_ne_nil (v : Nat) : decimal v ≠ [] := by
  unfold decimal
  split <;> simp

theorem decimal_isDigit (v : Nat) : ∀ ch ∈ decimal v, isDigit ch = true := by
  unfold decimal
  split
  · intro ch h
    simp only [List.mem_singleton] at h
    subst h
    decide
  · rename_i d ds h
    intro ch hch
    rw [← h] at hch
    simp only [List.mem_map, List.mem_reverse] at hch
    obtain ⟨x, hx, rfl⟩ := hch
    have := Nat.digits_lt_base (by norm_num : 1 < 10) hx
    simp [isDigit]
    omega

/-- A digit byte is none of `_`, `.`, `+`, `-`. -/
theorem isDigit_ne {ch : Nat} (h : isDigit ch = true) :
    ch ≠ cUnderscore ∧ ch ≠ cDot ∧ ch ≠ cPlus ∧ ch ≠ cMinus := by
  simp only [isDigit, cZero, Bool.and_eq_true, decide_eq_true_eq] at h
  simp only [cUnderscore, cDot, cPlus, cMinus]
  refine ⟨?_, ?_, ?_, ?_⟩ <;> omega

/-- `Atoi` reads back what `Itoa` printed, for a value that fits in `int`. -/
theorem atoi_decimal (v : Nat) (hv : v < 2 ^ (intSize - 1)) :
    atoi (decimal v) = some (v : Int) := by
  have hne := decimal_ne_nil v
  have hd := decimal_isDigit v
  have hval := digitsValue_decimal v
  cases hdec : decimal v with
  | nil => exact absurd hdec hne
  | cons c rest =>
    rw [hdec] at hd hval
    have hc := isDigit_ne (hd c (by simp))
    have hall : (c :: rest).all isDigit = true := by
      rw [List.all_eq_true]
      exact hd
    simp only [atoi, hc.2.2.2, hc.2.2.1, or_self, if_false, decide_False, hall, if_true,
      hval, hv, reduceCtorEq, Bool.false_eq_true]

/-! ## Lemmas on `versionFromPath` -/

/-- A path `name ++ "_" ++ c ++ decimal v ++ "." ++ ext` whose marker byte `c`
is neither `_` nor `.` and whose extension has no `_` resolves to `(name, v)`. -/
theorem versionFromPath_marked (name ext : GoString) (c v : Nat)
    (hc1 : c ≠ cUnderscore) (hc2 : c ≠ cDot) (hext : cUnderscore ∉ ext)
    (hv : v < 2 ^ (intSize - 1)) :
    versionFromPath (name ++ cUnderscore :: c :: (decimal v ++ cDot :: ext)) =
      some (name, (v : Int)) := by
  have hdig := decimal_isDigit v
  have hund : stringsLastIndex cUnderscore
      (name ++ cUnderscore :: c :: (decimal v ++ cDot :: ext)) = (name.length : Int) := by
    apply stringsLastIndex_append_cons
    simp only [List.mem_cons, List.mem_append, not_or]
    refine ⟨fun e => hc1 e.symm, fun h => (isDigit_ne (hdig _ h)).1 rfl, by decide, hext⟩
  have hdot : stringsIndex cDot (cUnderscore :: c :: (decimal v ++ cDot :: ext)) =
      (((cUnderscore :: c :: decimal v).length : Nat) : Int) := by
    have := stringsIndex_append_cons cDot (cUnderscore :: c :: decimal v) ext (by
      simp only [List.mem_cons, not_or]
      exact ⟨by decide, fun e => hc2 e.symm, fun h => (isDigit_ne (hdig _ h)).2.1 rfl⟩)
    simpa using this
  have hslice : slice (name ++ cUnderscore :: c :: (decimal v ++ cDot :: ext))
      ((name.length : Int) + 2)
      ((((cUnderscore :: c :: decimal v).length : Nat) : Int) + (name.length : Int)) =
      some (decimal v) := by
    unfold slice
    have h1 : ((name.length : Int) + 2).toNat = name.length + 2 := by omega
    have h2 : ((((cUnderscore :: c :: decimal v).length : Nat) : Int) +
        (name.length : Int)).toNat - (name.length + 2) = (decimal v).length := by
      simp only [List.length_cons]
      omega
    rw [if_pos, h1, h2]
    · have : List.drop (name.length + 2)
          (name ++ cUnderscore :: c :: (decimal v ++ cDot :: ext)) =
          decimal v ++ cDot :: ext := by
        rw [List.drop_append_eq_append_drop]
        simp
      rw [this]
      simp
    · simp only [List.length_cons, List.length_append]
      omega
  unfold versionFromPath
  simp only [hund]
  rw [if_neg (by omega)]
  simp only [Int.toNat_ofNat, List.drop_left, hdot]
  rw [if_neg (by omega)]
  simp only [hslice, atoi_decimal v hv, List.take_left]

/-- The panic of `versionFromPath`: a last `_` directly followed by `.`. -/
theorem versionFromPath_panic (name rest : GoString) (h : cUnderscore ∉ rest) :
    versionFromPath (name ++ cUnderscore :: cDot :: rest) = none := by
  have hund : stringsLastIndex cUnderscore (name ++ cUnderscore :: cDot :: rest) =
      (name.length : Int) := by
    apply stringsLastIndex_append_cons
    simp only [List.mem_cons, not_or]
    exact ⟨by decide, h⟩
  unfold versionFromPath
  simp only [hund]
  rw [if_neg (by omega)]
  simp only [Int.toNat_ofNat, List.drop_left]
  have : stringsIndex cDot (cUnderscore :: cDot :: rest) = 1 := by
    simp [stringsIndex]
  rw [this, if_neg (by omega)]
  have : slice (name ++ cUnderscore :: cDot :: rest) ((name.length : Int) + 2)
      (1 + (name.length : Int)) = none := by
    unfold slice
    rw [if_neg]
    omega
  simp only [this]

/-! ## Lemmas on maps -/

theorem mapLookup_filter_ne {ν : Type} (m : GoMap ν) (k k' : GoString) :
    mapLookup (m.filter (fun e => !decide (e.1 = k))) k' =
      if k = k' then none else mapLookup m k' := by
  induction m with
  | nil => simp [mapLookup]
  | cons e m ih =>
    obtain ⟨a, v⟩ := e
    by_cases ha : a = k
    · subst ha
      by_cases hk : a = k'
      · subst hk
        simpa [List.filter_cons] using ih
      · simpa [List.filter_cons, hk, mapLookup] using ih
    · by_cases hk : k = k'
      · subst hk
        simp [List.filter_cons, ha, mapLookup, ih]
      · simp [List.filter_cons, ha, mapLookup, ih, hk]

theorem mapLookup_mapSet {ν : Type} (m : GoMap ν) (k k' : GoString) (v : ν) :
    mapLookup (mapSet m k v) k' = if k = k' then some v else mapLookup m k' := by
  unfold mapSet
  by_cases hk : k = k'
  · simp [mapLookup, hk]
  · simp [mapLookup, hk, mapLookup_filter_ne]

theorem mapLookup_mapDelete {ν : Type} (m : GoMap ν) (k k' : GoString) :
    mapLookup (mapDelete m k) k' = if k = k' then none else mapLookup m k' :=
  mapLookup_filter_ne m k k'

theorem mapIndex_mapSet (m : GoMap Int) (k k' : GoString) (v : Int) :
    mapIndex (mapSet m k v) k' = if k = k' then v else mapIndex m k' := by
  unfold mapIndex
  rw [mapLookup_mapSet]
  split_ifs <;> rfl

theorem mapLookup_eq_none_iff {ν : Type} (m : GoMap ν) (k : GoString) :
    mapLookup m k = none ↔ k ∉ mapKeys m := by
  induction m with
  | nil => simp [mapLookup, mapKeys]
  | cons e m ih =>
    obtain ⟨a, v⟩ := e
    by_cases ha : a = k
    · simp [mapLookup, mapKeys, ha]
    · have hak : ¬ k = a := fun h => ha h.symm
      simp only [mapKeys] at ih
      simp [mapLookup, mapKeys, ha, hak, ih]

theorem mapKeys_count_filter_ne {ν : Type} (m : GoMap ν) (k p : GoString) :
    (mapKeys (m.filter (fun e => !decide (e.1 = k)))).count p =
      if k = p then 0 else (mapKeys m).count p := by
  induction m with
  | nil => simp [mapKeys]
  | cons e m ih =>
    obtain ⟨a, v⟩ := e
    simp only [mapKeys] at ih
    by_cases ha : a = k
    · subst ha
      by_cases hk : a = p
      · subst hk
        simpa [List.filter_cons, mapKeys] using ih
      · simpa [List.filter_cons, mapKeys, hk, List.count_cons] using ih
    · by_cases hk : k = p
      · subst hk
        have hak : ¬ k = a := fun h => ha h.symm
        simp only [if_true] at ih
        simp [List.filter_cons, ha, mapKeys, ih, List.count_cons, hak]
      · simp only [if_neg hk] at ih
        simp [List.filter_cons, ha, mapKeys, ih, List.count_cons, hk]

theorem mapKeys_count_mapSet {ν : Type} (m : GoMap ν) (k p : GoString) (v : ν) :
    (mapKeys (mapSet m k v)).count p = if k = p then 1 else (mapKeys m).count p := by
  have h := mapKeys_count_filter_ne m k p
  simp only [mapKeys] at h
  unfold mapSet
  by_cases hk : k = p
  · subst hk
    simp only [if_true] at h
    simp [mapKeys, List.count_cons, h]
  · simp only [if_neg hk] at h
    simp [mapKeys, List.count_cons, h, hk]

theorem mapKeys_count_mapDelete {ν : Type} (m : GoMap ν) (k p : GoString) :
    (mapKeys (mapDelete m k)).count p = if k = p then 0 else (mapKeys m).count p :=
  mapKeys_count_filter_ne m k p

theorem wellFormed_nil {ν : Type} : WellFormed ([] : GoMap ν) := by
  intro p
  simp [mapKeys]

theorem wellFormed_mapSet {ν : Type} (m : GoMap ν) (k : GoString) (v : ν)
    (h : WellFormed m) : WellFormed (mapSet m k v) := by
  intro p
  rw [mapKeys_count_mapSet]
  split_ifs
  · exact le_refl 1
  · exact h p

theorem wellFormed_mapDelete {ν : Type} (m : GoMap ν) (k : GoString)
    (h : WellFormed m) : WellFormed (mapDelete m k) := by
  intro p
  rw [mapKeys_count_mapDelete]
  split_ifs
  · exact Nat.zero_le 1
  · exact h p

theorem mapKeys_count_eq {ν : Type} (m : GoMap ν) (h : WellFormed m) (p : GoString) :
    (mapKeys m).count p = if (mapLookup m p).isSome then 1 else 0 := by
  cases hp : mapLookup m p with
  | none =>
    simp only [Option.isSome_none, Bool.false_eq_true, if_false]
    exact List.count_eq_zero_of_not_mem ((mapLookup_eq_none_iff m p).1 hp)
  | some v =>
    simp only [Option.isSome_some, if_true]
    have hmem : p ∈ mapKeys m := by
      by_contra hn
      rw [(mapLookup_eq_none_iff m p).2 hn] at hp
      cases hp
    have := List.count_pos_iff.2 hmem
    have := h p
    omega

/-- In a well-formed map every entry is the one a lookup finds. -/
theorem mapLookup_of_mem {ν : Type} (m : GoMap ν) (h : WellFormed m) (k : GoString) (v : ν)
    (hm : (k, v) ∈ m) : mapLookup m k = some v := by
  induction m with
  | nil => simp at hm
  | cons e m ih =>
    obtain ⟨a, w⟩ := e
    have hw : WellFormed m := by
      intro p
      have := h p
      simp only [mapKeys, List.map_cons, List.count_cons] at this ⊢
      omega
    rcases List.mem_cons.1 hm with heq | hmem
    · cases heq
      simp [mapLookup]
    · by_cases ha : a = k
      · subst ha
        exfalso
        have hk : a ∈ mapKeys m := List.mem_map.2 ⟨(a, v), hmem, rfl⟩
        have h1 := List.count_pos_iff.2 hk
        have h2 := h a
        simp only [mapKeys, List.map_cons, List.count_cons, beq_self_eq_true, if_true] at h2 h1
        omega
      · simp [mapLookup, ha, ih hw hmem]

/-! ## Lemmas on the first loop of `scan` -/

theorem latestLoop_cons (supported : Int) (fn : GoString) (fs : List GoString)
    (latest : GoMap Int) :
    latestLoop supported (fn :: fs) latest =
      match versionFromPath fn with
      | none => none
      | some (name, version) =>
        latestLoop supported fs (latestStep supported latest name version) := by
  rw [latestLoop]
  cases versionFromPath fn with
  | none => rfl
  | some nv =>
    obtain ⟨name, version⟩ := nv
    simp only [latestStep]
    split_ifs <;> rfl

theorem latestStep_mono (supported : Int) (latest : GoMap Int) (name : GoString)
    (version : Int) (n : GoString) :
    mapIndex latest n ≤ mapIndex (latestStep supported latest name version) n := by
  unfold latestStep
  split_ifs with h1 h2
  · exact le_refl _
  · rw [mapIndex_mapSet]
    split_ifs with h3
    · subst h3
      omega
    · exact le_refl _
  · exact le_refl _

theorem latestStep_upper (supported : Int) (latest : GoMap Int) (name : GoString)
    (version : Int) (h : version ≤ supported) :
    version ≤ mapIndex (latestStep supported latest name version) name := by
  unfold latestStep
  split_ifs with h1 h2
  · omega
  · rw [mapIndex_mapSet, if_pos rfl]
  · omega

theorem latestStep_attained (supported : Int) (latest : GoMap Int) (name : GoString)
    (version : Int) (n : GoString) :
    mapIndex (latestStep supported latest name version) n = mapIndex latest n ∨
      (n = name ∧ mapIndex (latestStep supported latest name version) n = version ∧
        version ≤ supported) := by
  unfold latestStep
  split_ifs with h1 h2
  · exact Or.inl rfl
  · rw [mapIndex_mapSet]
    split_ifs with h3
    · exact Or.inr ⟨h3.symm, rfl, by omega⟩
    · exact Or.inl rfl
  · exact Or.inl rfl

/-- The first loop returns exactly when every listed file resolves. -/
theorem latestLoop_isSome (supported : Int) (fs : List GoString) (latest : GoMap Int) :
    (latestLoop supported fs latest).isSome = true ↔
      ∀ fn ∈ fs, (versionFromPath fn).isSome = true := by
  induction fs generalizing latest with
  | nil => simp [latestLoop]
  | cons fn fs ih =>
    rw [latestLoop_cons]
    cases hv : versionFromPath fn with
    | none => simp [hv]
    | some nv =>
      obtain ⟨name, version⟩ := nv
      simp only [List.mem_cons, forall_eq_or_imp, hv, Option.isSome_some, true_and]
      exact ih _

theorem latestLoop_mono (supported : Int) (fs : List GoString) (l0 l : GoMap Int)
    (h : latestLoop supported fs l0 = some l) (n : GoString) :
    mapIndex l0 n ≤ mapIndex l n := by
  induction fs generalizing l0 with
  | nil =>
    simp only [latestLoop, Option.some.injEq] at h
    subst h
    exact le_refl _
  | cons fn fs ih =>
    rw [latestLoop_cons] at h
    cases hv : versionFromPath fn with
    | none => simp [hv] at h
    | some nv =>
      obtain ⟨name, version⟩ := nv
      simp only [hv] at h
      exact le_trans (latestStep_mono supported l0 name version n) (ih _ h)

/-- Every listed version within the supported range is at most the recorded
latest version of its name. -/
theorem latestLoop_upper (supported : Int) (fs : List GoString) (l0 l : GoMap Int)
    (h : latestLoop supported fs l0 = some l) (fn : GoString) (hfn : fn ∈ fs)
    (name : GoString) (v : Int) (hv : versionFromPath fn = some (name, v))
    (hs : v ≤ supported) : v ≤ mapIndex l name := by
  induction fs generalizing l0 with
  | nil => simp at hfn
  | cons g fs ih =>
    rw [latestLoop_cons] at h
    cases hg : versionFromPath g with
    | none => simp [hg] at h
    | some nv =>
      obtain ⟨gname, gversion⟩ := nv
      simp only [hg] at h
      rcases List.mem_cons.1 hfn with heq | hmem
      · subst heq
        rw [hv] at hg
        cases hg
        exact le_trans (latestStep_upper supported l0 name v hs)
          (latestLoop_mono supported fs _ l h name)
      · exact ih _ h hmem

/-- The recorded latest version of a name is the initial one or the version
of a listed file of that name within the supported range. -/
theorem latestLoop_attained (supported : Int) (fs : List GoString) (l0 l : GoMap Int)
    (h : latestLoop supported fs l0 = some l) (n : GoString) :
    mapIndex l n = mapIndex l0 n ∨
      ∃ fn ∈ fs, versionFromPath fn = some (n, mapIndex l n) ∧ mapIndex l n ≤ supported := by
  induction fs generalizing l0 with
  | nil =>
    simp only [latestLoop, Option.some.injEq] at h
    subst h
    exact Or.inl rfl
  | cons g fs ih =>
    rw [latestLoop_cons] at h
    cases hg : versionFromPath g with
    | none => simp [hg] at h
    | some nv =>
      obtain ⟨gname, gversion⟩ := nv
      simp only [hg] at h
      rcases ih _ h with h1 | ⟨fn, hfn, hres, hle⟩
      · rcases latestStep_attained supported l0 gname gversion n with h2 | ⟨h2, h3, h4⟩
        · exact Or.inl (h1.trans h2)
        · subst h2
          refine Or.inr ⟨g, List.mem_cons_self _ _, ?_, ?_⟩
          · rw [hg, h1, h3]
          · rw [h1, h3]
            exact h4
      · exact Or.inr ⟨fn, List.mem_cons_of_mem _ hfn, hres, hle⟩

theorem mapIndex_nil (n : GoString) : mapIndex [] n = 0 := rfl

/-! ## Lemmas on the second loop of `scan` -/

theorem statLoop_cons (latest : GoMap Int) (lstat : GoString → Option Time)
    (fn : GoString) (fs : List GoString) (ts : GoMap Time) :
    statLoop latest lstat (fn :: fs) ts =
      match versionFromPath fn with
      | none => none
      | some _ => statLoop latest lstat fs (statStep latest lstat ts fn) := by
  rw [statLoop]
  cases hv : versionFromPath fn with
  | none => rfl
  | some nv =>
    obtain ⟨name, version⟩ := nv
    simp only [statStep, passes, hv]
    by_cases h : mapIndex latest name = version
    · simp only [h, ne_eq, not_true_eq_false, if_false, decide_True, if_true]
      cases lstat fn <;> rfl
    · simp [h]

theorem mapLookup_statStep (latest : GoMap Int) (lstat : GoString → Option Time)
    (ts : GoMap Time) (fn p : GoString) :
    mapLookup (statStep latest lstat ts fn) p =
      if fn = p ∧ passes latest p = true ∧ (lstat p).isSome = true then lstat p
      else mapLookup ts p := by
  unfold statStep
  by_cases hp : passes latest fn = true
  · rw [if_pos hp]
    cases hl : lstat fn with
    | none =>
      by_cases e : fn = p
      · subst e
        simp [hl]
      · simp [e]
    | some mtime =>
      rw [mapLookup_mapSet]
      by_cases e : fn = p
      · subst e
        simp [hl, hp]
      · simp [e]
  · rw [if_neg hp]
    by_cases e : fn = p
    · subst e
      simp [hp]
    · simp [e]

theorem wellFormed_statStep (latest : GoMap Int) (lstat : GoString → Option Time)
    (ts : GoMap Time) (fn : GoString) (h : WellFormed ts) :
    WellFormed (statStep latest lstat ts fn) := by
  unfold statStep
  split_ifs
  · cases lstat fn with
    | none => exact h
    | some mtime => exact wellFormed_mapSet ts fn mtime h
  · exact h

/-- The second loop returns exactly when every listed file resolves. -/
theorem statLoop_isSome (latest : GoMap Int) (lstat : GoString → Option Time)
    (fs : List GoString) (ts : GoMap Time) :
    (statLoop latest lstat fs ts).isSome = true ↔
      ∀ fn ∈ fs, (versionFromPath fn).isSome = true := by
  induction fs generalizing ts with
  | nil => simp [statLoop]
  | cons fn fs ih =>
    rw [statLoop_cons]
    cases hv : versionFromPath fn with
    | none => simp [hv]
    | some nv =>
      simp only [List.mem_cons, forall_eq_or_imp, hv, Option.isSome_some, true_and]
      exact ih _

/-- The map built by the second loop: the listed files that pass the filter
and can be statted, each with its modification time. -/
theorem statLoop_lookup (latest : GoMap Int) (lstat : GoString → Option Time)
    (fs : List GoString) (ts0 ts : GoMap Time)
    (h : statLoop latest lstat fs ts0 = some ts) (p : GoString) :
    mapLookup ts p =
      if p ∈ fs ∧ passes latest p = true ∧ (lstat p).isSome = true then lstat p
      else mapLookup ts0 p := by
  induction fs generalizing ts0 with
  | nil =>
    simp only [statLoop, Option.some.injEq] at h
    subst h
    simp
  | cons fn fs ih =>
    rw [statLoop_cons] at h
    cases hv : versionFromPath fn with
    | none => simp [hv] at h
    | some nv =>
      simp only [hv] at h
      rw [ih _ h, mapLookup_statStep]
      by_cases h1 : p ∈ fs
      · by_cases h2 : passes latest p = true ∧ (lstat p).isSome = true
        · simp [h1, h2]
        · have h2' : ¬ (fn = p ∧ passes latest p = true ∧ (lstat p).isSome = true) :=
            fun hh => h2 hh.2
          have h3 : ¬ (p ∈ fs ∧ passes latest p = true ∧ (lstat p).isSome = true) :=
            fun hh => h2 hh.2
          have h4 : ¬ (p ∈ fn :: fs ∧ passes latest p = true ∧ (lstat p).isSome = true) :=
            fun hh => h2 hh.2
          rw [if_neg h3, if_neg h2', if_neg h4]
      · by_cases e : fn = p
        · subst e
          simp [h1]
        · have e' : ¬ p = fn := fun hh => e hh.symm
          simp [h1, e, e']

theorem statLoop_wellFormed (latest : GoMap Int) (lstat : GoString → Option Time)
    (fs : List GoString) (ts0 ts : GoMap Time)
    (h : statLoop latest lstat fs ts0 = some ts) (h0 : WellFormed ts0) : WellFormed ts := by
  induction fs generalizing ts0 with
  | nil =>
    simp only [statLoop, Option.some.injEq] at h
    subst h
    exact h0
  | cons fn fs ih =>
    rw [statLoop_cons] at h
    cases hv : versionFromPath fn with
    | none => simp [hv] at h
    | some nv =>
      simp only [hv] at h
      exact ih _ h (wellFormed_statStep latest lstat ts0 fn h0)

/-! ## Lemmas on the third and fourth loops of `scan` -/

theorem loadLoop_cons (e : GoString × Time) (rest : List (GoString × Time))
    (st : List GoString × GoMap Time) :
    loadLoop (e :: rest) st = loadLoop rest (loadStep st e) := by
  obtain ⟨k, mtime⟩ := e
  obtain ⟨toLoad, timestamps⟩ := st
  rw [loadLoop]
  unfold loadStep
  cases h : mapLookup timestamps k with
  | none => simp [h]
  | some t =>
    by_cases e : t = mtime
    · simp [h, e]
    · simp [h, e]

theorem loadStep_lookup (st : List GoString × GoMap Time) (e : GoString × Time)
    (p : GoString) :
    mapLookup (loadStep st e).2 p = if e.1 = p then some e.2 else mapLookup st.2 p := by
  unfold loadStep
  split_ifs with h1 h2 h3
  · subst h2
    exact h1
  · rfl
  · simp [mapLookup_mapSet, h3]
  · simp [mapLookup_mapSet, h3]

theorem loadStep_count (st : List GoString × GoMap Time) (e : GoString × Time)
    (p : GoString) :
    (loadStep st e).1.count p =
      st.1.count p + if e.1 = p ∧ mapLookup st.2 p ≠ some e.2 then 1 else 0 := by
  unfold loadStep
  by_cases h1 : mapLookup st.2 e.1 = some e.2
  · rw [if_pos h1]
    by_cases h2 : e.1 = p
    · subst h2
      simp [h1]
    · simp [h2]
  · rw [if_neg h1]
    by_cases h2 : e.1 = p
    · subst h2
      simp [h1]
    · have h3 : ¬ p = e.1 := fun hh => h2 hh.symm
      simp [h2, List.count_append, List.count_cons, h3]

theorem loadStep_keys_count (st : List GoString × GoMap Time) (e : GoString × Time)
    (p : GoString) (hp : e.1 ≠ p) :
    (mapKeys (loadStep st e).2).count p = (mapKeys st.2).count p := by
  unfold loadStep
  split_ifs
  · rfl
  · simp [mapKeys_count_mapSet, hp]

theorem loadStep_wellFormed (st : List GoString × GoMap Time) (e : GoString × Time)
    (h : WellFormed st.2) : WellFormed (loadStep st e).2 := by
  unfold loadStep
  split_ifs
  · exact h
  · exact wellFormed_mapSet _ _ _ h

theorem wellFormed_tail {ν : Type} (e : GoString × ν) (m : GoMap ν)
    (h : WellFormed (e :: m)) : WellFormed m ∧ mapLookup m e.1 = none := by
  constructor
  · intro p
    have := h p
    simp only [mapKeys, List.map_cons, List.count_cons] at this ⊢
    omega
  · rw [mapLookup_eq_none_iff]
    intro hmem
    have h1 := List.count_pos_iff.2 hmem
    have h2 := h e.1
    simp only [mapKeys, List.map_cons, List.count_cons, beq_self_eq_true, if_true] at h2 h1
    omega

/-- After the third loop `s.timestamps` agrees with `ts` on the keys of `ts`
and is unchanged elsewhere. -/
theorem loadLoop_lookup (es : List (GoString × Time)) (st : List GoString × GoMap Time)
    (hes : WellFormed es) (p : GoString) :
    mapLookup (loadLoop es st).2 p =
      if mapLookup es p ≠ none then mapLookup es p else mapLookup st.2 p := by
  induction es generalizing st with
  | nil => simp [loadLoop, mapLookup]
  | cons e rest ih =>
    obtain ⟨hw, hk⟩ := wellFormed_tail e rest hes
    rw [loadLoop_cons, ih _ hw, loadStep_lookup]
    obtain ⟨k, mtime⟩ := e
    by_cases e1 : k = p
    · subst e1
      simp only at hk
      simp [mapLookup, hk]
    · simp [mapLookup, e1]

/-- The third loop appends to `toLoad`, once, each key of `ts` that is new
or whose time differs. -/
theorem loadLoop_count (es : List (GoString × Time)) (st : List GoString × GoMap Time)
    (hes : WellFormed es) (p : GoString) :
    (loadLoop es st).1.count p =
      st.1.count p +
        if mapLookup es p ≠ none ∧ mapLookup st.2 p ≠ mapLookup es p then 1 else 0 := by
  induction es generalizing st with
  | nil => simp [loadLoop, mapLookup]
  | cons e rest ih =>
    obtain ⟨hw, hk⟩ := wellFormed_tail e rest hes
    rw [loadLoop_cons, ih _ hw, loadStep_count, loadStep_lookup]
    obtain ⟨k, mtime⟩ := e
    by_cases e1 : k = p
    · subst e1
      simp only at hk
      simp [mapLookup, hk]
    · simp [mapLookup, e1]

theorem loadLoop_keys_count (es : List (GoString × Time)) (st : List GoString × GoMap Time)
    (p : GoString) (hp : mapLookup es p = none) :
    (mapKeys (loadLoop es st).2).count p = (mapKeys st.2).count p := by
  induction es generalizing st with
  | nil => simp [loadLoop]
  | cons e rest ih =>
    obtain ⟨k, mtime⟩ := e
    have hk : k ≠ p := by
      intro hh
      subst hh
      simp [mapLookup] at hp
    have hr : mapLookup rest p = none := by
      simpa [mapLookup, hk] using hp
    rw [loadLoop_cons, ih _ hr, loadStep_keys_count _ _ _ hk]

theorem loadLoop_wellFormed (es : List (GoString × Time)) (st : List GoString × GoMap Time)
    (h : WellFormed st.2) : WellFormed (loadLoop es st).2 := by
  induction es generalizing st with
  | nil => simpa [loadLoop] using h
  | cons e rest ih =>
    rw [loadLoop_cons]
    exact ih _ (loadStep_wellFormed st e h)

theorem dropLoop_cons (ts : GoMap Time) (k : GoString) (rest : List GoString)
    (st : List GoString × GoMap Time) :
    dropLoop ts (k :: rest) st = dropLoop ts rest (dropStep ts st k) := by
  obtain ⟨toDrop, timestamps⟩ := st
  rw [dropLoop]
  unfold dropStep
  cases h : mapLookup ts k with
  | none => simp
  | some t => simp

theorem dropStep_lookup (ts : GoMap Time) (st : List GoString × GoMap Time)
    (k p : GoString) :
    mapLookup (dropStep ts st k).2 p =
      if k = p ∧ mapLookup ts p = none then none else mapLookup st.2 p := by
  unfold dropStep
  by_cases h1 : mapLookup ts k = none
  · rw [if_pos h1, mapLookup_mapDelete]
    by_cases h2 : k = p
    · subst h2
      simp [h1]
    · simp [h2]
  · rw [if_neg h1]
    by_cases h2 : k = p
    · subst h2
      simp [h1]
    · simp [h2]

theorem dropStep_count (ts : GoMap Time) (st : List GoString × GoMap Time)
    (k p : GoString) :
    (dropStep ts st k).1.count p =
      st.1.count p + if k = p ∧ mapLookup ts p = none then 1 else 0 := by
  unfold dropStep
  by_cases h1 : mapLookup ts k = none
  · rw [if_pos h1]
    by_cases h2 : k = p
    · subst h2
      simp [h1]
    · have h3 : ¬ p = k := fun hh => h2 hh.symm
      simp [h2, List.count_append, List.count_cons, h3]
  · rw [if_neg h1]
    by_cases h2 : k = p
    · subst h2
      simp [h1]
    · simp [h2]

theorem dropStep_wellFormed (ts : GoMap Time) (st : List GoString × GoMap Time)
    (k : GoString) (h : WellFormed st.2) : WellFormed (dropStep ts st k).2 := by
  unfold dropStep
  split_ifs
  · exact wellFormed_mapDelete _ _ h
  · exact h

/-- After the fourth loop the visited keys that are absent from `ts` are gone
from `s.timestamps`, and nothing else changed. -/
theorem dropLoop_lookup (ts : GoMap Time) (ks : List GoString)
    (st : List GoString × GoMap Time) (p : GoString) :
    mapLookup (dropLoop ts ks st).2 p =
      if p ∈ ks ∧ mapLookup ts p = none then none else mapLookup st.2 p := by
  induction ks generalizing st with
  | nil => simp [dropLoop]
  | cons k rest ih =>
    rw [dropLoop_cons, ih, dropStep_lookup]
    by_cases h1 : mapLookup ts p = none
    · by_cases h2 : k = p
      · subst h2
        simp [h1]
      · have h3 : ¬ p = k := fun hh => h2 hh.symm
        simp [h1, h2, h3]
    · simp [h1]

/-- The fourth loop appends to `toDrop` each visited key that is absent from
`ts`, once per visit. -/
theorem dropLoop_count (ts : GoMap Time) (ks : List GoString)
    (st : List GoString × GoMap Time) (p : GoString) :
    (dropLoop ts ks st).1.count p =
      st.1.count p + if mapLookup ts p = none then ks.count p else 0 := by
  induction ks generalizing st with
  | nil => simp [dropLoop]
  | cons k rest ih =>
    rw [dropLoop_cons, ih, dropStep_count]
    by_cases h1 : mapLookup ts p = none
    · by_cases h2 : k = p
      · subst h2
        simp [h1]
        omega
      · simp [h1, h2, List.count_cons]
    · simp [h1]

theorem dropLoop_wellFormed (ts : GoMap Time) (ks : List GoString)
    (st : List GoString × GoMap Time) (h : WellFormed st.2) :
    WellFormed (dropLoop ts ks st).2 := by
  induction ks generalizing st with
  | nil => simpa [dropLoop] using h
  | cons k rest ih =>
    rw [dropLoop_cons]
    exact ih _ (dropStep_wellFormed ts st k h)

/-! ## Lemmas on `scan` -/

theorem wellFormed_cons {ν : Type} (e : GoString × ν) (m : GoMap ν) :
    WellFormed (e :: m) ↔ e.1 ∉ mapKeys m ∧ WellFormed m := by
  constructor
  · intro h
    obtain ⟨hw, hk⟩ := wellFormed_tail e m h
    exact ⟨(mapLookup_eq_none_iff m e.1).1 hk, hw⟩
  · rintro ⟨hk, hw⟩ p
    have h1 := hw p
    simp only [mapKeys, List.map_cons, List.count_cons] at h1 ⊢
    by_cases hp : e.1 = p
    · subst hp
      have := List.count_eq_zero_of_not_mem hk
      simp only [mapKeys] at this
      simp [this]
    · simp [hp]
      exact h1

theorem wellFormed_iff_nodup {ν : Type} (m : GoMap ν) : WellFormed m ↔ (mapKeys m).Nodup := by
  induction m with
  | nil => simp [WellFormed, mapKeys]
  | cons e m ih =>
    rw [wellFormed_cons, ih]
    simp [mapKeys, List.nodup_cons]

theorem scanTimes_eq (supported : Int) (fs : List GoString) (lstat : GoString → Option Time)
    (ts : GoMap Time) (h : scanTimes supported fs lstat = some ts) :
    ∃ latest, latestLoop supported fs [] = some latest ∧
      statLoop latest lstat fs [] = some ts := by
  unfold scanTimes at h
  cases hl : latestLoop supported fs [] with
  | none => simp [hl] at h
  | some latest =>
    simp only [hl] at h
    exact ⟨latest, rfl, h⟩

/-- The first two loops return exactly when every listed file resolves. -/
theorem scanTimes_isSome (supported : Int) (fs : List GoString)
    (lstat : GoString → Option Time) :
    (scanTimes supported fs lstat).isSome = true ↔
      ∀ fn ∈ fs, (versionFromPath fn).isSome = true := by
  unfold scanTimes
  cases hl : latestLoop supported fs [] with
  | none =>
    have := latestLoop_isSome supported fs []
    rw [hl] at this
    simpa using this
  | some latest =>
    exact statLoop_isSome latest lstat fs []

/-- The map `ts`: the selected listed paths that can be statted, each with its
modification time. -/
theorem scanTimes_lookup (supported : Int) (fs : List GoString)
    (lstat : GoString → Option Time) (ts : GoMap Time)
    (h : scanTimes supported fs lstat = some ts) (p : GoString) :
    mapLookup ts p = if p ∈ fs ∧ selected supported fs p = true then lstat p else none := by
  obtain ⟨latest, hl, hs⟩ := scanTimes_eq supported fs lstat ts h
  rw [statLoop_lookup latest lstat fs [] ts hs p]
  have hsel : selected supported fs p = passes latest p := by
    simp [selected, hl]
  rw [hsel]
  by_cases h1 : p ∈ fs ∧ passes latest p = true
  · cases hp : lstat p with
    | none => simp [mapLookup]
    | some t => simp [h1]
  · have h2 : ¬ (p ∈ fs ∧ passes latest p = true ∧ (lstat p).isSome = true) :=
      fun hh => h1 ⟨hh.1, hh.2.1⟩
    rw [if_neg h1, if_neg h2]
    rfl

theorem scanTimes_wellFormed (supported : Int) (fs : List GoString)
    (lstat : GoString → Option Time) (ts : GoMap Time)
    (h : scanTimes supported fs lstat = some ts) : WellFormed ts := by
  obtain ⟨latest, _, hs⟩ := scanTimes_eq supported fs lstat ts h
  exact statLoop_wellFormed latest lstat fs [] ts hs wellFormed_nil

theorem scan_eq (supported : Int) (fs : List GoString) (lstat : GoString → Option Time)
    (R : GoMap Time) (r : ScanResult) (h : scan supported (some fs) lstat R = some r) :
    ∃ ts, scanTimes supported fs lstat = some ts ∧
      r = ⟨false, (dropLoop ts (mapKeys (loadLoop ts ([], R)).2) ([], (loadLoop ts ([], R)).2)).2,
        (dropLoop ts (mapKeys (loadLoop ts ([], R)).2) ([], (loadLoop ts ([], R)).2)).1,
        (loadLoop ts ([], R)).1⟩ := by
  unfold scan at h
  cases ht : scanTimes supported fs lstat with
  | none => simp [ht] at h
  | some ts =>
    simp only [ht, Option.some.injEq] at h
    exact ⟨ts, rfl, h.symm⟩

/-- What one scan does, in terms of the map `ts` of its first two loops and
of the registry `R` it starts from. -/
theorem scan_spec (supported : Int) (fs : List GoString) (lstat : GoString → Option Time)
    (R : GoMap Time) (r : ScanResult) (h : scan supported (some fs) lstat R = some r) :
    ∃ ts, scanTimes supported fs lstat = some ts ∧ r.err = false ∧
      (∀ p, mapLookup r.timestamps p = mapLookup ts p) ∧
      (∀ p, r.toLoad.count p =
        if mapLookup ts p ≠ none ∧ mapLookup R p ≠ mapLookup ts p then 1 else 0) ∧
      (∀ p, r.toDrop.count p = if mapLookup ts p = none then (mapKeys R).count p else 0) ∧
      (WellFormed R → WellFormed r.timestamps) := by
  obtain ⟨ts, ht, hr⟩ := scan_eq supported fs lstat R r h
  have hts := scanTimes_wellFormed supported fs lstat ts ht
  subst hr
  refine ⟨ts, ht, rfl, ?_, ?_, ?_, ?_⟩
  · intro p
    simp only
    rw [dropLoop_lookup, loadLoop_lookup ts _ hts]
    by_cases h1 : mapLookup ts p = none
    · by_cases h2 : p ∈ mapKeys (loadLoop ts ([], R)).2
      · simp [h1, h2]
      · have := (mapLookup_eq_none_iff _ p).2 h2
        rw [loadLoop_lookup ts _ hts] at this
        simp only [h1, ne_eq, not_true_eq_false, if_false] at this
        simp [h1, h2, this]
    · simp [h1]
  · intro p
    simp only
    rw [loadLoop_count ts _ hts]
    simp
  · intro p
    simp only
    rw [dropLoop_count]
    by_cases h1 : mapLookup ts p = none
    · simp [h1, loadLoop_keys_count ts _ p h1]
    · simp [h1]
  · intro hR
    exact dropLoop_wellFormed _ _ _ (loadLoop_wellFormed ts _ hR)

/-- A scan returns exactly when every listed file resolves. -/
theorem scan_isSome (supported : Int) (fs : List GoString) (lstat : GoString → Option Time)
    (R : GoMap Time) :
    (scan supported (some fs) lstat R).isSome = true ↔
      ∀ fn ∈ fs, (versionFromPath fn).isSome = true := by
  rw [← scanTimes_isSome supported fs lstat]
  unfold scan
  cases h : scanTimes supported fs lstat <;> simp [h]

theorem scan_glob_error (supported : Int) (lstat : GoString → Option Time) (R : GoMap Time) :
    scan supported none lstat R = some ⟨true, R, [], []⟩ := rfl

/-- A version above the supported one is never selected. -/
theorem selected_eq_false_of_gt (supported : Int) (fs : List GoString) (hs : 0 ≤ supported)
    (p name : GoString) (v : Int) (hv : versionFromPath p = some (name, v))
    (hgt : supported < v) : selected supported fs p = false := by
  unfold selected
  cases hl : latestLoop supported fs [] with
  | none => rfl
  | some latest =>
    simp only [passes, hv, decide_eq_false_iff_not]
    have hatt := latestLoop_attained supported fs [] latest hl name
    rw [mapIndex_nil] at hatt
    rcases hatt with h0 | ⟨_, _, _, hle⟩ <;> omega

/-- A loop over entries that `s.timestamps` already holds does nothing. -/
theorem loadLoop_fixed (es : List (GoString × Time)) (st : List GoString × GoMap Time)
    (h : ∀ e ∈ es, mapLookup st.2 e.1 = some e.2) : loadLoop es st = st := by
  induction es with
  | nil => rfl
  | cons e rest ih =>
    rw [loadLoop_cons]
    have : loadStep st e = st := by
      unfold loadStep
      rw [if_pos (h e (List.mem_cons_self _ _))]
    rw [this]
    exact ih (fun e' he' => h e' (List.mem_cons_of_mem _ he'))

/-- A loop over keys that `ts` holds drops nothing. -/
theorem dropLoop_fixed (ts : GoMap Time) (ks : List GoString)
    (st : List GoString × GoMap Time) (h : ∀ k ∈ ks, mapLookup ts k ≠ none) :
    dropLoop ts ks st = st := by
  induction ks with
  | nil => rfl
  | cons k rest ih =>
    rw [dropLoop_cons]
    have : dropStep ts st k = st := by
      unfold dropStep
      rw [if_neg (h k (List.mem_cons_self _ _))]
    rw [this]
    exact ih (fun k' hk' => h k' (List.mem_cons_of_mem _ hk'))

/-! ## Lemmas on sequences of scans -/

/-- Induction over a sequence of scans. -/
theorem runScans_invariant (supported : Int) (P : shardWatcher → Prop)
    (hstep : ∀ (w : shardWatcher) (d : Dir) (r : ScanResult), P w →
      scan supported d.glob d.lstat w.timestamps = some r →
      P ⟨r.timestamps, w.trace ++ r.calls⟩)
    (dirs : List Dir) (w0 w : shardWatcher) (h0 : P w0)
    (h : runScans supported dirs w0 = some w) : P w := by
  induction dirs generalizing w0 with
  | nil =>
    simp only [runScans, Option.some.injEq] at h
    subst h
    exact h0
  | cons d ds ih =>
    rw [runScans] at h
    cases hr : scan supported d.glob d.lstat w0.timestamps with
    | none => simp [hr] at h
    | some r =>
      simp only [hr] at h
      exact ih _ (hstep w0 d r h0 hr) h

theorem mem_calls_load (r : ScanResult) (p : GoString) :
    Call.load p ∈ r.calls ↔ p ∈ r.toLoad := by
  simp [ScanResult.calls]

theorem mem_calls_drop (r : ScanResult) (p : GoString) :
    Call.drop p ∈ r.calls ↔ p ∈ r.toDrop := by
  simp [ScanResult.calls]

theorem lastCall_append (t c : List Call) (p : GoString) :
    lastCall (t ++ c) p = (lastCall c p).or (lastCall t p) := by
  simp [lastCall, List.reverse_append, List.find?_append]

theorem lastCall_map_load (l : List GoString) (p : GoString) :
    lastCall (l.map Call.load) p = if p ∈ l then some (Call.load p) else none := by
  induction l with
  | nil => simp [lastCall]
  | cons a l ih =>
    have e : (a :: l).map Call.load = [Call.load a] ++ l.map Call.load := rfl
    rw [e, lastCall_append, ih]
    by_cases h1 : p ∈ l
    · simp [h1]
    · by_cases h2 : a = p
      · subst h2
        simp [h1, lastCall, Call.filename]
      · have h3 : ¬ p = a := fun hh => h2 hh.symm
        simp [h1, h2, h3, lastCall, Call.filename]

theorem lastCall_map_drop (l : List GoString) (p : GoString) :
    lastCall (l.map Call.drop) p = if p ∈ l then some (Call.drop p) else none := by
  induction l with
  | nil => simp [lastCall]
  | cons a l ih =>
    have e : (a :: l).map Call.drop = [Call.drop a] ++ l.map Call.drop := rfl
    rw [e, lastCall_append, ih]
    by_cases h1 : p ∈ l
    · simp [h1]
    · by_cases h2 : a = p
      · subst h2
        simp [h1, lastCall, Call.filename]
      · have h3 : ¬ p = a := fun hh => h2 hh.symm
        simp [h1, h2, h3, lastCall, Call.filename]

/-- The most recent call about `p` after one more scan. -/
theorem lastCall_scan (t : List Call) (r : ScanResult) (p : GoString) :
    lastCall (t ++ r.calls) p =
      if p ∈ r.toLoad then some (Call.load p)
      else if p ∈ r.toDrop then some (Call.drop p)
      else lastCall t p := by
  rw [lastCall_append, ScanResult.calls, lastCall_append, lastCall_map_load, lastCall_map_drop]
  by_cases h1 : p ∈ r.toLoad
  · simp [h1]
  · by_cases h2 : p ∈ r.toDrop
    · simp [h1, h2]
    · simp [h1, h2]

/-! ## The version resolver -/

/-- C1: `versionFromPath` is not total. On the path `foo_.zoekt`, whose last
`_` is directly followed by `.`, the slice `path[und+2 : dot]` has bounds
`5 > 4` and the function panics instead of returning a pair. -/
theorem versionFromPath_panics_on_underscore_dot :
    versionFromPath (ascii "foo_.zoekt") = none := by
  decide

/-- C2: for every name and every non-negative `v` that fits in `int`, the
path `name ++ "_v" ++ decimal v ++ ".zoekt"` resolves to `(name, v)`. -/
theorem versionFromPath_roundtrip (name : GoString) (v : Nat) (hv : v < 2 ^ (intSize - 1)) :
    versionFromPath (name ++ ascii "_v" ++ decimal v ++ ascii ".zoekt") =
      some (name, (v : Int)) := by
  have h := versionFromPath_marked name (ascii "zoekt") cV v (by decide) (by decide)
    (by decide) hv
  have e : name ++ ascii "_v" ++ decimal v ++ ascii ".zoekt" =
      name ++ cUnderscore :: cV :: (decimal v ++ cDot :: ascii "zoekt") := by
    have e1 : ascii "_v" = [cUnderscore, cV] := by decide
    have e2 : ascii ".zoekt" = cDot :: ascii "zoekt" := by decide
    rw [e1, e2]
    simp
  rw [e]
  exact h

/-- Witness of C2: version 16 of the shard `foo`. -/
theorem versionFromPath_roundtrip_witness :
    versionFromPath (ascii "foo" ++ ascii "_v" ++ decimal 16 ++ ascii ".zoekt") =
      some (ascii "foo", 16) :=
  versionFromPath_roundtrip (ascii "foo") 16 (by decide)

/-! ## One scan -/

/-- C3: when `scan` returns, the registry maps exactly the selected listed
paths that could be statted to their modification times, whatever it held
before: a lookup gives the time of such a path and nothing for any other
path, and the keys are exactly these paths. -/
theorem scan_registry_exact (supported : Int) (fs : List GoString)
    (lstat : GoString → Option Time) (R : GoMap Time) (r : ScanResult)
    (h : scan supported (some fs) lstat R = some r) :
    r.err = false ∧
    (∀ p, mapLookup r.timestamps p =
      if p ∈ fs ∧ selected supported fs p = true then lstat p else none) ∧
    (∀ p, p ∈ mapKeys r.timestamps ↔
      p ∈ fs ∧ selected supported fs p = true ∧ (lstat p).isSome = true) := by
  obtain ⟨ts, ht, herr, hlook, _, _, _⟩ := scan_spec supported fs lstat R r h
  have hl : ∀ p, mapLookup r.timestamps p =
      if p ∈ fs ∧ selected supported fs p = true then lstat p else none := by
    intro p
    rw [hlook p, scanTimes_lookup supported fs lstat ts ht p]
  refine ⟨herr, hl, ?_⟩
  intro p
  have hk := mapLookup_eq_none_iff r.timestamps p
  rw [hl p] at hk
  by_cases h1 : p ∈ fs ∧ selected supported fs p = true
  · rw [if_pos h1] at hk
    cases hp : lstat p with
    | none =>
      rw [hp] at hk
      simp only [true_iff] at hk
      simp [hk]
    | some t =>
      rw [hp] at hk
      simp only [reduceCtorEq, false_iff, not_not] at hk
      simp [hk, h1]
  · rw [if_neg h1] at hk
    simp only [true_iff] at hk
    constructor
    · intro hh
      exact absurd hh hk
    · intro hh
      exact absurd ⟨hh.1, hh.2.1⟩ h1

/-- Witness of C3: two versions of `foo` and a registry holding a stale path. -/
theorem scan_registry_exact_witness :
    mapLookup [(ascii "foo_v2.zoekt", 7)] (ascii "foo_v2.zoekt") =
      (if ascii "foo_v2.zoekt" ∈ [ascii "foo_v1.zoekt", ascii "foo_v2.zoekt"] ∧
          selected 16 [ascii "foo_v1.zoekt", ascii "foo_v2.zoekt"] (ascii "foo_v2.zoekt") = true
        then some 7 else none) :=
  (scan_registry_exact 16 [ascii "foo_v1.zoekt", ascii "foo_v2.zoekt"] (fun _ => some 7)
    [(ascii "stale_v1.zoekt", 3)]
    ⟨false, [(ascii "foo_v2.zoekt", 7)], [ascii "stale_v1.zoekt"], [ascii "foo_v2.zoekt"]⟩
    (by decide)).2.1 (ascii "foo_v2.zoekt")

/-- C4: in a listing whose files all resolve to non-negative versions, with a
supported version `≥ 0`, a listed file of name `name` and version `v` is
selected exactly when `v` is within the supported range and is the largest
version within that range among the listed files of the same name. -/
theorem selected_iff_max (supported : Int) (fs : List GoString) (hs : 0 ≤ supported)
    (hres : ∀ g ∈ fs, (versionFromPath g).isSome = true)
    (hnn : ∀ g ∈ fs, ∀ n w, versionFromPath g = some (n, w) → 0 ≤ w)
    (f : GoString) (hf : f ∈ fs) (name : GoString) (v : Int)
    (hv : versionFromPath f = some (name, v)) :
    selected supported fs f = true ↔
      (v ≤ supported ∧
        ∀ g ∈ fs, ∀ w, versionFromPath g = some (name, w) → w ≤ supported → w ≤ v) := by
  have hsome := (latestLoop_isSome supported fs []).2 hres
  cases hl : latestLoop supported fs [] with
  | none => simp [hl] at hsome
  | some latest =>
    have hsel : selected supported fs f = decide (mapIndex latest name = v) := by
      simp [selected, hl, passes, hv]
    rw [hsel, decide_eq_true_eq]
    have hatt := latestLoop_attained supported fs [] latest hl name
    rw [mapIndex_nil] at hatt
    constructor
    · intro heq
      refine ⟨?_, ?_⟩
      · rcases hatt with h0 | ⟨fn, _, _, hle⟩
        · omega
        · omega
      · intro g hg w hw hws
        have := latestLoop_upper supported fs [] latest hl g hg name w hw hws
        omega
    · rintro ⟨hvs, hmax⟩
      have hup := latestLoop_upper supported fs [] latest hl f hf name v hv hvs
      rcases hatt with h0 | ⟨fn, hfn, hfv, hle⟩
      · have := hnn f hf name v hv
        omega
      · have := hmax fn hfn _ hfv hle
        omega

/-- Witness of C4: of `foo_v1.zoekt` and `foo_v2.zoekt`, the second is selected. -/
theorem selected_iff_max_witness :
    selected 16 [ascii "foo_v1.zoekt", ascii "foo_v2.zoekt"] (ascii "foo_v2.zoekt") = true ↔
      ((2 : Int) ≤ 16 ∧
        ∀ g ∈ [ascii "foo_v1.zoekt", ascii "foo_v2.zoekt"], ∀ w,
          versionFromPath g = some (ascii "foo", w) → w ≤ 16 → w ≤ 2) :=
  selected_iff_max 16 [ascii "foo_v1.zoekt", ascii "foo_v2.zoekt"] (by decide) (by decide)
    (by
      intro g hg n w hw
      simp only [List.mem_cons, List.mem_singleton, List.not_mem_nil, or_false] at hg
      rcases hg with rfl | rfl
      · have e : versionFromPath (ascii "foo_v1.zoekt") = some (ascii "foo", 1) := by decide
        rw [e] at hw
        cases hw
        decide
      · have e : versionFromPath (ascii "foo_v2.zoekt") = some (ascii "foo", 2) := by decide
        rw [e] at hw
        cases hw
        decide)
    (ascii "foo_v2.zoekt") (by decide) (ascii "foo") 2 (by decide)

/-- C6: with `ts` the map of the first two loops and `R` the registry on
entry, a path is passed to `load` once if it is a key of `ts` that `R` lacks
or holds with another time, and never otherwise; a path is passed to `drop`
once if it is a key of `R` and not of `ts`, and never otherwise; a tracked
file whose time changed is loaded again and gets the new time. -/
theorem scan_load_drop_sets (supported : Int) (fs : List GoString)
    (lstat : GoString → Option Time) (R : GoMap Time) (r : ScanResult)
    (hR : (mapKeys R).Nodup) (h : scan supported (some fs) lstat R = some r) :
    ∃ ts, scanTimes supported fs lstat = some ts ∧
      (∀ p, r.toLoad.count p =
        if mapLookup ts p ≠ none ∧ mapLookup R p ≠ mapLookup ts p then 1 else 0) ∧
      (∀ p, r.toDrop.count p =
        if mapLookup R p ≠ none ∧ mapLookup ts p = none then 1 else 0) ∧
      (∀ p t t', mapLookup R p = some t → mapLookup ts p = some t' → t ≠ t' →
        r.toLoad.count p = 1 ∧ mapLookup r.timestamps p = some t') := by
  obtain ⟨ts, ht, _, hlook, hload, hdrop, _⟩ := scan_spec supported fs lstat R r h
  have hw : WellFormed R := (wellFormed_iff_nodup R).2 hR
  refine ⟨ts, ht, hload, ?_, ?_⟩
  · intro p
    rw [hdrop p, mapKeys_count_eq R hw p]
    cases h1 : mapLookup R p <;> cases h2 : mapLookup ts p <;> simp
  · intro p t t' h1 h2 hne
    rw [hload p, hlook p, h1, h2]
    have : (some t : Option Time) ≠ some t' := fun hh => hne (Option.some.inj hh)
    simp [this]

/-- Witness of C6: `foo_v2.zoekt` is tracked with time 5 and now has time 7. -/
theorem scan_load_drop_sets_witness :
    ∃ ts, scanTimes 16 [ascii "foo_v2.zoekt"] (fun _ => some 7) = some ts ∧
      (∀ p, List.count p [ascii "foo_v2.zoekt"] =
        if mapLookup ts p ≠ none ∧ mapLookup [(ascii "foo_v2.zoekt", 5)] p ≠ mapLookup ts p
        then 1 else 0) ∧
      (∀ p, List.count p ([] : List GoString) =
        if mapLookup [(ascii "foo_v2.zoekt", 5)] p ≠ none ∧ mapLookup ts p = none
        then 1 else 0) ∧
      (∀ p t t', mapLookup [(ascii "foo_v2.zoekt", 5)] p = some t → mapLookup ts p = some t' →
        t ≠ t' →
        List.count p [ascii "foo_v2.zoekt"] = 1 ∧
          mapLookup [(ascii "foo_v2.zoekt", 7)] p = some t') :=
  scan_load_drop_sets 16 [ascii "foo_v2.zoekt"] (fun _ => some 7) [(ascii "foo_v2.zoekt", 5)]
    ⟨false, [(ascii "foo_v2.zoekt", 7)], [], [ascii "foo_v2.zoekt"]⟩ (by decide) (by decide)

/-- C7: a scan that returns leaves a registry on which a second scan of the
same listing with the same stat results passes nothing to `load` and nothing
to `drop` and leaves the registry as it is. -/
theorem scan_idempotent (supported : Int) (fs : List GoString)
    (lstat : GoString → Option Time) (R : GoMap Time) (r : ScanResult)
    (h : scan supported (some fs) lstat R = some r) :
    scan supported (some fs) lstat r.timestamps = some ⟨false, r.timestamps, [], []⟩ := by
  obtain ⟨ts, ht, _, hlook, _, _, _⟩ := scan_spec supported fs lstat R r h
  have hts := scanTimes_wellFormed supported fs lstat ts ht
  have h1 : loadLoop ts ([], r.timestamps) = ([], r.timestamps) := by
    apply loadLoop_fixed
    intro e he
    rw [hlook e.1]
    exact mapLookup_of_mem ts hts e.1 e.2 he
  have h2 : dropLoop ts (mapKeys r.timestamps) ([], r.timestamps) = ([], r.timestamps) := by
    apply dropLoop_fixed
    intro k hk hn
    rw [← hlook k] at hn
    exact (mapLookup_eq_none_iff r.timestamps k).1 hn hk
  unfold scan
  simp only [ht, h1, h2]

/-- Witness of C7: the registry after scanning two versions of `foo`. -/
theorem scan_idempotent_witness :
    scan 16 (some [ascii "foo_v1.zoekt", ascii "foo_v2.zoekt"]) (fun _ => some 7)
      [(ascii "foo_v2.zoekt", 7)] = some ⟨false, [(ascii "foo_v2.zoekt", 7)], [], []⟩ :=
  scan_idempotent 16 [ascii "foo_v1.zoekt", ascii "foo_v2.zoekt"] (fun _ => some 7)
    [(ascii "stale_v1.zoekt", 3)]
    ⟨false, [(ascii "foo_v2.zoekt", 7)], [ascii "stale_v1.zoekt"], [ascii "foo_v2.zoekt"]⟩
    (by decide)

/-- C8: from a registry without `p`, a scan of a listing in which `p` is
selected and can be statted passes `p` to `load` once; a following scan of a
listing without `p` passes `p` to `drop` once, does not load it, and leaves a
registry without `p`. -/
theorem add_remove_round_trip (supported : Int) (fs₁ fs₂ : List GoString)
    (lstat₁ lstat₂ : GoString → Option Time) (R : GoMap Time) (r₁ r₂ : ScanResult)
    (p : GoString) (hR : (mapKeys R).Nodup) (hp : mapLookup R p = none)
    (hin : p ∈ fs₁) (hsel : selected supported fs₁ p = true)
    (hstat : (lstat₁ p).isSome = true)
    (h₁ : scan supported (some fs₁) lstat₁ R = some r₁)
    (hout : p ∉ fs₂)
    (h₂ : scan supported (some fs₂) lstat₂ r₁.timestamps = some r₂) :
    r₁.toLoad.count p = 1 ∧ r₁.toDrop.count p = 0 ∧
      r₂.toDrop.count p = 1 ∧ r₂.toLoad.count p = 0 ∧ mapLookup r₂.timestamps p = none := by
  obtain ⟨ts₁, ht₁, _, hlook₁, hload₁, hdrop₁, hwf₁⟩ := scan_spec supported fs₁ lstat₁ R r₁ h₁
  obtain ⟨ts₂, ht₂, _, hlook₂, hload₂, hdrop₂, _⟩ :=
    scan_spec supported fs₂ lstat₂ r₁.timestamps r₂ h₂
  have hw₁ : WellFormed r₁.timestamps := hwf₁ ((wellFormed_iff_nodup R).2 hR)
  have e₁ : mapLookup ts₁ p = lstat₁ p := by
    rw [scanTimes_lookup supported fs₁ lstat₁ ts₁ ht₁ p, if_pos ⟨hin, hsel⟩]
  have e₂ : mapLookup ts₂ p = none := by
    rw [scanTimes_lookup supported fs₂ lstat₂ ts₂ ht₂ p, if_neg (fun hh => hout hh.1)]
  obtain ⟨t, ht⟩ := Option.isSome_iff_exists.1 hstat
  rw [ht] at e₁
  refine ⟨?_, ?_, ?_, ?_, ?_⟩
  · rw [hload₁ p, e₁, hp]
    simp
  · rw [hdrop₁ p, e₁]
    simp
  · rw [hdrop₂ p, e₂, mapKeys_count_eq r₁.timestamps hw₁ p, hlook₁ p, e₁]
    simp
  · rw [hload₂ p, e₂]
    simp
  · rw [hlook₂ p, e₂]

/-- Witness of C8: `bar_v1.zoekt` is created, scanned, deleted and scanned. -/
theorem add_remove_round_trip_witness :
    List.count (ascii "bar_v1.zoekt") [ascii "bar_v1.zoekt"] = 1 ∧
      List.count (ascii "bar_v1.zoekt") ([] : List GoString) = 0 ∧
      List.count (ascii "bar_v1.zoekt") [ascii "bar_v1.zoekt"] = 1 ∧
      List.count (ascii "bar_v1.zoekt") ([] : List GoString) = 0 ∧
      mapLookup ([] : GoMap Time) (ascii "bar_v1.zoekt") = none :=
  add_remove_round_trip 16 [ascii "bar_v1.zoekt"] [] (fun _ => some 7) (fun _ => none) []
    ⟨false, [(ascii "bar_v1.zoekt", 7)], [], [ascii "bar_v1.zoekt"]⟩
    ⟨false, [], [ascii "bar_v1.zoekt"], []⟩
    (ascii "bar_v1.zoekt") (by decide) (by decide) (by decide) (by decide) (by decide)
    (by decide) (by decide) (by decide)

/-- C10, as the code has it: a listed file that is not selected is never
passed to `load`; it is passed to `drop`, once, exactly when the registry
held it on entry. -/
theorem unselected_not_loaded (supported : Int) (fs : List GoString)
    (lstat : GoString → Option Time) (R : GoMap Time) (r : ScanResult) (p : GoString)
    (hR : (mapKeys R).Nodup) (h : scan supported (some fs) lstat R = some r)
    (_hin : p ∈ fs) (hsel : selected supported fs p = false) :
    r.toLoad.count p = 0 ∧
      r.toDrop.count p = (if (mapLookup R p).isSome = true then 1 else 0) := by
  obtain ⟨ts, ht, _, _, hload, hdrop, _⟩ := scan_spec supported fs lstat R r h
  have e : mapLookup ts p = none := by
    rw [scanTimes_lookup supported fs lstat ts ht p, if_neg]
    intro hh
    rw [hsel] at hh
    exact Bool.false_ne_true hh.2
  constructor
  · rw [hload p, e]
    simp
  · rw [hdrop p, e, mapKeys_count_eq R ((wellFormed_iff_nodup R).2 hR) p]
    simp

/-- Witness of C10 as amended: `foo_v1.zoekt` is superseded and untracked. -/
theorem unselected_not_loaded_witness :
    List.count (ascii "foo_v1.zoekt") [ascii "foo_v2.zoekt"] = 0 ∧
      List.count (ascii "foo_v1.zoekt") ([] : List GoString) =
        (if (mapLookup ([] : GoMap Time) (ascii "foo_v1.zoekt")).isSome = true then 1 else 0) :=
  unselected_not_loaded 16 [ascii "foo_v1.zoekt", ascii "foo_v2.zoekt"] (fun _ => some 7) []
    ⟨false, [(ascii "foo_v2.zoekt", 7)], [], [ascii "foo_v2.zoekt"]⟩ (ascii "foo_v1.zoekt")
    (by decide) (by decide) (by decide) (by decide)

/-- C10 as stated fails: with `foo_v1.zoekt` tracked, a scan that lists it
together with `foo_v2.zoekt` does not select it and passes it to `drop`. -/
theorem unselected_dropped_counterexample :
    ascii "foo_v1.zoekt" ∈ [ascii "foo_v1.zoekt", ascii "foo_v2.zoekt"] ∧
      selected 16 [ascii "foo_v1.zoekt", ascii "foo_v2.zoekt"] (ascii "foo_v1.zoekt") = false ∧
      (scan 16 (some [ascii "foo_v1.zoekt", ascii "foo_v2.zoekt"]) (fun _ => some 7)
        [(ascii "foo_v1.zoekt", 5)]).map (fun r => r.toDrop) = some [ascii "foo_v1.zoekt"] := by
  decide

/-! ## Sequences of scans -/

/-- C5: with a supported version `≥ 0`, after any sequence of scans of a new
watcher, a path whose version exceeds the supported one was never passed to
`load`, never passed to `drop`, and is not a key of the registry. -/
theorem newer_version_never_tracked (supported : Int) (hs : 0 ≤ supported)
    (dirs : List Dir) (w : shardWatcher) (h : runScans supported dirs shardWatcher.init = some w)
    (p name : GoString) (v : Int) (hv : versionFromPath p = some (name, v))
    (hgt : supported < v) :
    Call.load p ∉ w.trace ∧ Call.drop p ∉ w.trace ∧ p ∉ mapKeys w.timestamps := by
  refine runScans_invariant supported
    (fun w => Call.load p ∉ w.trace ∧ Call.drop p ∉ w.trace ∧ p ∉ mapKeys w.timestamps)
    ?_ dirs shardWatcher.init w ?_ h
  · rintro w0 ⟨glob, lstat⟩ r ⟨h1, h2, h3⟩ hr
    cases glob with
    | none =>
      rw [scan_glob_error] at hr
      cases hr
      simpa [ScanResult.calls] using ⟨h1, h2, h3⟩
    | some fs =>
      obtain ⟨ts, ht, _, hlook, hload, hdrop, _⟩ :=
        scan_spec supported fs lstat w0.timestamps r hr
      have e : mapLookup ts p = none := by
        rw [scanTimes_lookup supported fs lstat ts ht p,
          selected_eq_false_of_gt supported fs hs p name v hv hgt]
        simp
      have hl : p ∉ r.toLoad := by
        rw [← List.count_eq_zero, hload p, e]
        simp
      have hd : p ∉ r.toDrop := by
        rw [← List.count_eq_zero, hdrop p, e]
        simpa using List.count_eq_zero_of_not_mem h3
      have hk : p ∉ mapKeys r.timestamps := by
        rw [← mapLookup_eq_none_iff, hlook p, e]
      refine ⟨?_, ?_, hk⟩
      · simp only [List.mem_append, mem_calls_load, not_or]
        exact ⟨h1, hl⟩
      · simp only [List.mem_append, mem_calls_drop, not_or]
        exact ⟨h2, hd⟩
  · simp [shardWatcher.init, mapKeys]

/-- Witness of C5: `foo_v5.zoekt` next to `foo_v2.zoekt`, supported version 2. -/
theorem newer_version_never_tracked_witness :
    Call.load (ascii "foo_v5.zoekt") ∉ [Call.load (ascii "foo_v2.zoekt")] ∧
      Call.drop (ascii "foo_v5.zoekt") ∉ [Call.load (ascii "foo_v2.zoekt")] ∧
      ascii "foo_v5.zoekt" ∉ mapKeys [(ascii "foo_v2.zoekt", (7 : Time))] :=
  newer_version_never_tracked 2 (by decide)
    [⟨some [ascii "foo_v2.zoekt", ascii "foo_v5.zoekt"], fun _ => some 7⟩]
    ⟨[(ascii "foo_v2.zoekt", 7)], [Call.load (ascii "foo_v2.zoekt")]⟩ (by decide)
    (ascii "foo_v5.zoekt") (ascii "foo") 5 (by decide) (by decide)

/-- C9: after any sequence of scans of a new watcher, the keys of the
registry are exactly the paths whose most recent loader call is a `load`. -/
theorem registry_matches_trace (supported : Int) (dirs : List Dir) (w : shardWatcher)
    (h : runScans supported dirs shardWatcher.init = some w) (p : GoString) :
    p ∈ mapKeys w.timestamps ↔ lastCall w.trace p = some (Call.load p) := by
  refine runScans_invariant supported
    (fun w => ∀ p, p ∈ mapKeys w.timestamps ↔ lastCall w.trace p = some (Call.load p))
    ?_ dirs shardWatcher.init w ?_ h p
  · rintro w0 ⟨glob, lstat⟩ r ih hr q
    cases glob with
    | none =>
      rw [scan_glob_error] at hr
      cases hr
      simpa [ScanResult.calls] using ih q
    | some fs =>
      obtain ⟨ts, ht, _, hlook, hload, hdrop, _⟩ :=
        scan_spec supported fs lstat w0.timestamps r hr
      have hl : q ∈ r.toLoad ↔
          (mapLookup ts q ≠ none ∧ mapLookup w0.timestamps q ≠ mapLookup ts q) := by
        rw [← List.count_pos_iff, hload q]
        split_ifs with hc
        · simp [hc]
        · simp [hc]
      have hd : q ∈ r.toDrop ↔ (mapLookup ts q = none ∧ q ∈ mapKeys w0.timestamps) := by
        rw [← List.count_pos_iff, hdrop q]
        split_ifs with hc
        · simp [hc, List.count_pos_iff]
        · simp [hc]
      have hk : q ∈ mapKeys r.timestamps ↔ mapLookup ts q ≠ none := by
        rw [← hlook q, ne_eq, mapLookup_eq_none_iff, not_not]
      have hk0 : q ∈ mapKeys w0.timestamps ↔ mapLookup w0.timestamps q ≠ none := by
        rw [ne_eq, mapLookup_eq_none_iff, not_not]
      simp only
      rw [lastCall_scan, hk]
      by_cases h1 : mapLookup ts q = none
      · have nl : q ∉ r.toLoad := fun hh => (hl.1 hh).1 h1
        by_cases h2 : q ∈ mapKeys w0.timestamps
        · have : q ∈ r.toDrop := hd.2 ⟨h1, h2⟩
          simp [h1, nl, this]
        · have nd : q ∉ r.toDrop := fun hh => h2 (hd.1 hh).2
          have := ih q
          simp only [h2, false_iff] at this
          simp [h1, nl, nd, this]
      · by_cases h2 : q ∈ r.toLoad
        · simp [h1, h2]
        · have nd : q ∉ r.toDrop := fun hh => h1 (hd.1 hh).1
          have heq : mapLookup w0.timestamps q = mapLookup ts q := by
            by_contra hne
            exact h2 (hl.2 ⟨h1, hne⟩)
          have hin : q ∈ mapKeys w0.timestamps := by
            rw [hk0, heq]
            exact h1
          simp [h1, h2, nd, (ih q).1 hin]
  · intro q
    simp [shardWatcher.init, mapKeys, lastCall]

/-- Witness of C9: `bar_v1.zoekt` is loaded by a first scan and dropped by a
second, `foo_v2.zoekt` is loaded by the second. -/
theorem registry_matches_trace_witness :
    ascii "foo_v2.zoekt" ∈ mapKeys [(ascii "foo_v2.zoekt", (7 : Time))] ↔
      lastCall [Call.load (ascii "bar_v1.zoekt"), Call.drop (ascii "bar_v1.zoekt"),
        Call.load (ascii "foo_v2.zoekt")] (ascii "foo_v2.zoekt") =
        some (Call.load (ascii "foo_v2.zoekt")) :=
  registry_matches_trace 16
    [⟨some [ascii "bar_v1.zoekt"], fun _ => some 7⟩,
      ⟨some [ascii "foo_v2.zoekt"], fun _ => some 7⟩]
    ⟨[(ascii "foo_v2.zoekt", 7)],
      [Call.load (ascii "bar_v1.zoekt"), Call.drop (ascii "bar_v1.zoekt"),
        Call.load (ascii "foo_v2.zoekt")]⟩
    (by decide) (ascii "foo_v2.zoekt")

/-! ## More on the version resolver -/

/-- What a successful `Atoi` has read. -/
theorem atoi_some (t : GoString) (w : Int) (h : atoi t = some w) :
    ∃ c rest ds, t = c :: rest ∧ ds = (if c = cMinus ∨ c = cPlus then rest else t) ∧
      ds ≠ [] ∧ ds.all isDigit = true ∧
      ((c = cMinus ∧ digitsValue ds ≤ 2 ^ (intSize - 1) ∧ w = -((digitsValue ds : Nat) : Int)) ∨
        (c ≠ cMinus ∧ digitsValue ds < 2 ^ (intSize - 1) ∧ w = ((digitsValue ds : Nat) : Int))) := by
  cases t with
  | nil => simp [atoi] at h
  | cons c rest =>
    refine ⟨c, rest, _, rfl, rfl, ?_⟩
    simp only [atoi] at h
    generalize (if c = cMinus ∨ c = cPlus then rest else c :: rest) = ds at h ⊢
    by_cases h1 : ds = []
    · simp [h1] at h
    · rw [if_neg h1] at h
      by_cases h2 : ds.all isDigit = true
      · rw [if_pos h2] at h
        refine ⟨h1, h2, ?_⟩
        by_cases h3 : c = cMinus
        · simp only [h3, decide_True, if_true] at h
          by_cases h4 : digitsValue ds ≤ 2 ^ (intSize - 1)
          · rw [if_pos h4] at h
            exact Or.inl ⟨h3, h4, (Option.some.inj h).symm⟩
          · rw [if_neg h4] at h
            cases h
        · simp only [h3, decide_False, Bool.false_eq_true, if_false] at h
          by_cases h4 : digitsValue ds < 2 ^ (intSize - 1)
          · rw [if_pos h4] at h
            exact Or.inr ⟨h3, h4, (Option.some.inj h).symm⟩
          · rw [if_neg h4] at h
            cases h
      · rw [if_neg h2] at h
        cases h

theorem atoi_range (t : GoString) (w : Int) (h : atoi t = some w) :
    -(2 ^ (intSize - 1) : Int) ≤ w ∧ w < 2 ^ (intSize - 1) := by
  obtain ⟨c, rest, ds, _, _, _, _, hw⟩ := atoi_some t w h
  have hpos : (0 : Int) < 2 ^ (intSize - 1) := by positivity
  rcases hw with ⟨_, hle, rfl⟩ | ⟨_, hlt, rfl⟩
  · have : ((digitsValue ds : Nat) : Int) ≤ ((2 ^ (intSize - 1) : Nat) : Int) := by
      exact_mod_cast hle
    push_cast at this
    constructor <;> omega
  · have : ((digitsValue ds : Nat) : Int) < ((2 ^ (intSize - 1) : Nat) : Int) := by
      exact_mod_cast hlt
    push_cast at this
    constructor <;> omega

theorem atoi_nonneg (t : GoString) (w : Int) (h : atoi t = some w)
    (hm : t.head? ≠ some cMinus) : 0 ≤ w := by
  obtain ⟨c, rest, ds, ht, _, _, _, hw⟩ := atoi_some t w h
  rcases hw with ⟨hc, _, _⟩ | ⟨_, _, rfl⟩
  · exfalso
    apply hm
    rw [ht, hc]
    rfl
  · exact Int.ofNat_nonneg _

/-- `Atoi` fails on a text that is not a decimal number with an optional sign. -/
theorem atoi_eq_none (t : GoString)
    (h : ∀ ds, (t = ds ∨ t = cPlus :: ds ∨ t = cMinus :: ds) →
      ds = [] ∨ ds.all isDigit = false) : atoi t = none := by
  cases ha : atoi t with
  | none => rfl
  | some w =>
    exfalso
    obtain ⟨c, rest, ds, ht, hds, hne, hall, _⟩ := atoi_some t w ha
    have hd : t = ds ∨ t = cPlus :: ds ∨ t = cMinus :: ds := by
      by_cases hc : c = cMinus ∨ c = cPlus
      · rw [if_pos hc] at hds
        rcases hc with e | e
        · exact Or.inr (Or.inr (by rw [ht, hds, e]))
        · exact Or.inr (Or.inl (by rw [ht, hds, e]))
      · rw [if_neg hc] at hds
        exact Or.inl hds.symm
    rcases h ds hd with e | e
    · exact hne e
    · rw [e] at hall
      cases hall

/-- How `versionFromPath` depends on the text it parses. -/
theorem versionFromPath_cases (path name : GoString) (v : Int)
    (h : versionFromPath path = some (name, v)) :
    (versionText path = none ∧ v = 0) ∨
      ∃ t, versionText path = some t ∧
        ((atoi t = none ∧ v = 0) ∨ atoi t = some v) := by
  unfold versionFromPath at h
  unfold versionText
  simp only at h ⊢
  split_ifs at h ⊢ with h1 h2
  · cases h
    exact Or.inl ⟨rfl, rfl⟩
  · cases h
    exact Or.inl ⟨rfl, rfl⟩
  · cases hs : slice path (stringsLastIndex cUnderscore path + 2)
        (stringsIndex cDot (List.drop (stringsLastIndex cUnderscore path).toNat path) +
          stringsLastIndex cUnderscore path) with
    | none => simp [hs] at h
    | some t =>
      simp only [hs] at h
      refine Or.inr ⟨t, rfl, ?_⟩
      cases ha : atoi t with
      | none =>
        simp only [ha, Option.some.injEq, Prod.mk.injEq] at h
        exact Or.inl ⟨rfl, h.2.symm⟩
      | some w =>
        simp only [ha, Option.some.injEq, Prod.mk.injEq] at h
        rw [h.2]
        exact Or.inr rfl

/-- C14: a path without `_` resolves to itself with version 0. -/
theorem versionFromPath_no_underscore (path : GoString) (h : cUnderscore ∉ path) :
    versionFromPath path = some (path, 0) := by
  unfold versionFromPath
  simp [stringsLastIndex_of_not_mem cUnderscore path h]

/-- Witness of C14: the path `weird.zoekt`. -/
theorem versionFromPath_no_underscore_witness :
    versionFromPath (ascii "weird.zoekt") = some (ascii "weird.zoekt", 0) :=
  versionFromPath_no_underscore (ascii "weird.zoekt") (by decide)

/-- C20: the byte after the last `_` is not checked. For every name, every
byte `c` other than `_` and every non-negative `v` that fits in `int`, if
`c ++ decimal v` has no `.` then `name ++ "_" ++ c ++ decimal v ++ ".zoekt"`
resolves to `(name, v)`. -/
theorem versionFromPath_any_marker (name : GoString) (c v : Nat) (hc : c ≠ cUnderscore)
    (hdot : cDot ∉ c :: decimal v) (hv : v < 2 ^ (intSize - 1)) :
    versionFromPath (name ++ ascii "_" ++ [c] ++ decimal v ++ ascii ".zoekt") =
      some (name, (v : Int)) := by
  have hc2 : c ≠ cDot := by
    intro e
    exact hdot (by simp [e])
  have h := versionFromPath_marked name (ascii "zoekt") c v hc hc2 (by decide) hv
  have e : name ++ ascii "_" ++ [c] ++ decimal v ++ ascii ".zoekt" =
      name ++ cUnderscore :: c :: (decimal v ++ cDot :: ascii "zoekt") := by
    have e1 : ascii "_" = [cUnderscore] := by decide
    have e2 : ascii ".zoekt" = cDot :: ascii "zoekt" := by decide
    rw [e1, e2]
    simp
  rw [e]
  exact h

/-- Witness of C20: the path `foo_x16.zoekt`. -/
theorem versionFromPath_any_marker_witness :
    versionFromPath (ascii "foo" ++ ascii "_" ++ [120] ++ decimal 16 ++ ascii ".zoekt") =
      some (ascii "foo", 16) :=
  versionFromPath_any_marker (ascii "foo") 120 16 (by decide)
    (by
      have e : decimal 16 = [49, 54] := by simp [decimal]
      rw [e]
      decide)
    (by decide)

/-- C13 as stated fails: `foo_v-3.zoekt` resolves to the negative version
`-3`, and the text `-3` between the marker and the `.` is not a plain decimal
number. -/
theorem versionFromPath_negative_counterexample :
    versionFromPath (ascii "foo_v-3.zoekt") = some (ascii "foo", -3) ∧
      versionText (ascii "foo_v-3.zoekt") = some (ascii "-3") ∧
      (ascii "-3").all isDigit = false := by
  decide

/-- C13, as the code has it: a returned version lies in the range of `int`;
it is non-negative unless the parsed text starts with `-`; it is 0 when there
is no parsed text and when the text is not a decimal number with an optional
sign `+` or `-`. -/
theorem versionFromPath_version (path name : GoString) (v : Int)
    (h : versionFromPath path = some (name, v)) :
    (-(2 ^ (intSize - 1) : Int) ≤ v ∧ v < 2 ^ (intSize - 1)) ∧
      (versionText path = none → v = 0) ∧
      (∀ t, versionText path = some t → t.head? ≠ some cMinus → 0 ≤ v) ∧
      (∀ t, versionText path = some t →
        (∀ ds, (t = ds ∨ t = cPlus :: ds ∨ t = cMinus :: ds) →
          ds = [] ∨ ds.all isDigit = false) → v = 0) := by
  have hpos : (0 : Int) < 2 ^ (intSize - 1) := by positivity
  rcases versionFromPath_cases path name v h with ⟨hn, hz⟩ | ⟨t, ht, ⟨_, hz⟩ | ha⟩
  · subst hz
    refine ⟨⟨by omega, hpos⟩, fun _ => rfl, ?_, ?_⟩
    · intro t ht
      rw [hn] at ht
      cases ht
    · intro t ht
      rw [hn] at ht
      cases ht
  · subst hz
    exact ⟨⟨by omega, hpos⟩, fun _ => rfl, fun _ _ _ => le_refl 0, fun _ _ _ => rfl⟩
  · refine ⟨atoi_range t v ha, ?_, ?_, ?_⟩
    · intro hn
      rw [hn] at ht
      cases ht
    · intro t' ht' hm
      rw [ht] at ht'
      cases ht'
      exact atoi_nonneg t v ha hm
    · intro t' ht' hnot
      rw [ht] at ht'
      cases ht'
      rw [atoi_eq_none t hnot] at ha
      cases ha

/-- Witness of C13 as amended: the version of `foo_vx.zoekt` is 0. -/
theorem versionFromPath_version_witness :
    (-(2 ^ (intSize - 1) : Int) ≤ 0 ∧ (0 : Int) < 2 ^ (intSize - 1)) ∧
      (versionText (ascii "foo_vx.zoekt") = none → (0 : Int) = 0) ∧
      (∀ t, versionText (ascii "foo_vx.zoekt") = some t → t.head? ≠ some cMinus →
        (0 : Int) ≤ 0) ∧
      (∀ t, versionText (ascii "foo_vx.zoekt") = some t →
        (∀ ds, (t = ds ∨ t = cPlus :: ds ∨ t = cMinus :: ds) →
          ds = [] ∨ ds.all isDigit = false) → (0 : Int) = 0) :=
  versionFromPath_version (ascii "foo_vx.zoekt") (ascii "foo_vx.zoekt") 0 (by decide)

/-! ## More on one scan -/

/-- What it means for a file to be selected. -/
theorem selected_iff (supported : Int) (fs : List GoString) (p : GoString) :
    selected supported fs p = true ↔
      ∃ latest, latestLoop supported fs [] = some latest ∧
        ∃ n v, versionFromPath p = some (n, v) ∧ mapIndex latest n = v := by
  unfold selected
  cases hl : latestLoop supported fs [] with
  | none => simp
  | some latest =>
    unfold passes
    cases hv : versionFromPath p with
    | none => simp
    | some nv =>
      obtain ⟨n, v⟩ := nv
      simp [eq_comm]

/-- The keys of the registry after a scan. -/
theorem scan_mem_keys (supported : Int) (fs : List GoString) (lstat : GoString → Option Time)
    (R : GoMap Time) (r : ScanResult) (h : scan supported (some fs) lstat R = some r)
    (p : GoString) :
    p ∈ mapKeys r.timestamps ↔
      p ∈ fs ∧ selected supported fs p = true ∧ (lstat p).isSome = true := by
  obtain ⟨ts, ht, _, hlook, _, _, _⟩ := scan_spec supported fs lstat R r h
  have hk := mapLookup_eq_none_iff r.timestamps p
  rw [hlook p, scanTimes_lookup supported fs lstat ts ht p] at hk
  by_cases h1 : p ∈ fs ∧ selected supported fs p = true
  · rw [if_pos h1] at hk
    cases hp : lstat p with
    | none =>
      rw [hp] at hk
      simp only [true_iff] at hk
      simp [hk]
    | some t =>
      rw [hp] at hk
      simp only [reduceCtorEq, false_iff, not_not] at hk
      simp [hk, h1]
  · rw [if_neg h1] at hk
    simp only [true_iff] at hk
    constructor
    · intro hh
      exact absurd hh hk
    · intro hh
      exact absurd ⟨hh.1, hh.2.1⟩ h1

/-- C11 as stated fails: the two shards `foo_v1.00000.zoekt` and
`foo_v1.00001.zoekt` both resolve to `(foo, 1)`, both are selected, and both
are keys of the registry after the scan. -/
theorem same_name_keys_counterexample :
    versionFromPath (ascii "foo_v1.00000.zoekt") = some (ascii "foo", 1) ∧
      versionFromPath (ascii "foo_v1.00001.zoekt") = some (ascii "foo", 1) ∧
      ascii "foo_v1.00000.zoekt" ≠ ascii "foo_v1.00001.zoekt" ∧
      (scan 16 (some [ascii "foo_v1.00000.zoekt", ascii "foo_v1.00001.zoekt"])
        (fun _ => some 7) []).map (fun r => mapKeys r.timestamps) =
        some [ascii "foo_v1.00000.zoekt", ascii "foo_v1.00001.zoekt"] := by
  decide

/-- C11, as the code has it: after a scan, two keys of the registry that
resolve to the same logical name resolve to the same version. -/
theorem same_name_same_version (supported : Int) (fs : List GoString)
    (lstat : GoString → Option Time) (R : GoMap Time) (r : ScanResult)
    (h : scan supported (some fs) lstat R = some r) (p q n : GoString) (v w : Int)
    (hp : p ∈ mapKeys r.timestamps) (hq : q ∈ mapKeys r.timestamps)
    (hpv : versionFromPath p = some (n, v)) (hqv : versionFromPath q = some (n, w)) :
    v = w := by
  have sp := ((scan_mem_keys supported fs lstat R r h p).1 hp).2.1
  have sq := ((scan_mem_keys supported fs lstat R r h q).1 hq).2.1
  obtain ⟨latest, hl, n1, v1, e1, m1⟩ := (selected_iff supported fs p).1 sp
  obtain ⟨latest', hl', n2, v2, e2, m2⟩ := (selected_iff supported fs q).1 sq
  rw [hl] at hl'
  cases hl'
  rw [hpv] at e1
  rw [hqv] at e2
  cases e1
  cases e2
  rw [← m1, ← m2]

/-- Witness of C11 as amended: the two shards of `foo` at version 1. -/
theorem same_name_same_version_witness :
    versionFromPath (ascii "foo_v1.00000.zoekt") = some (ascii "foo", 1) ∧
      versionFromPath (ascii "foo_v1.00001.zoekt") = some (ascii "foo", 1) ∧ (1 : Int) = 1 :=
  ⟨by decide, by decide,
    same_name_same_version 16 [ascii "foo_v1.00000.zoekt", ascii "foo_v1.00001.zoekt"]
      (fun _ => some 7) []
      ⟨false, [(ascii "foo_v1.00000.zoekt", 7), (ascii "foo_v1.00001.zoekt", 7)], [],
        [ascii "foo_v1.00001.zoekt", ascii "foo_v1.00000.zoekt"]⟩
      (by decide) (ascii "foo_v1.00000.zoekt") (ascii "foo_v1.00001.zoekt") (ascii "foo") 1 1
      (by decide) (by decide) (by decide) (by decide)⟩

/-- C19 as stated fails: next to `weird.zoekt_v3.zoekt`, which resolves to
`(weird.zoekt, 3)`, the path `weird.zoekt` resolves to itself with version 0,
can be statted, and is neither selected nor a key of the registry. -/
theorem unversioned_competitor_counterexample :
    versionFromPath (ascii "weird.zoekt") = some (ascii "weird.zoekt", 0) ∧
      versionFromPath (ascii "weird.zoekt_v3.zoekt") = some (ascii "weird.zoekt", 3) ∧
      selected 16 [ascii "weird.zoekt", ascii "weird.zoekt_v3.zoekt"] (ascii "weird.zoekt") =
        false ∧
      (scan 16 (some [ascii "weird.zoekt", ascii "weird.zoekt_v3.zoekt"])
        (fun _ => some 7) []).map (fun r => mapKeys r.timestamps) =
        some [ascii "weird.zoekt_v3.zoekt"] := by
  decide

/-- C19, as the code has it: a listed path that resolves to itself with
version 0 and can be statted is selected and is a key of the registry after
the scan, provided no listed file resolves to that path as its logical name
with a positive version within the supported range. -/
theorem unversioned_selected (supported : Int) (fs : List GoString)
    (lstat : GoString → Option Time) (R : GoMap Time) (r : ScanResult)
    (h : scan supported (some fs) lstat R = some r) (p : GoString) (hin : p ∈ fs)
    (hv : versionFromPath p = some (p, 0)) (hstat : (lstat p).isSome = true)
    (hno : ∀ q ∈ fs, ∀ v, versionFromPath q = some (p, v) → v ≤ supported → v ≤ 0) :
    selected supported fs p = true ∧ p ∈ mapKeys r.timestamps := by
  have hsel : selected supported fs p = true := by
    obtain ⟨ts, ht, _⟩ := scan_spec supported fs lstat R r h
    obtain ⟨latest, hl, _⟩ := scanTimes_eq supported fs lstat ts ht
    rw [selected_iff]
    refine ⟨latest, hl, p, 0, hv, ?_⟩
    have hmono := latestLoop_mono supported fs [] latest hl p
    rw [mapIndex_nil] at hmono
    rcases latestLoop_attained supported fs [] latest hl p with h0 | ⟨q, hq, hqv, hle⟩
    · rw [h0, mapIndex_nil]
    · have := hno q hq _ hqv hle
      omega
  exact ⟨hsel, (scan_mem_keys supported fs lstat R r h p).2 ⟨hin, hsel, hstat⟩⟩

/-- Witness of C19 as amended: `weird.zoekt` next to `foo_v2.zoekt`. -/
theorem unversioned_selected_witness :
    selected 16 [ascii "weird.zoekt", ascii "foo_v2.zoekt"] (ascii "weird.zoekt") = true ∧
      ascii "weird.zoekt" ∈
        mapKeys [(ascii "weird.zoekt", (7 : Time)), (ascii "foo_v2.zoekt", 7)] :=
  unversioned_selected 16 [ascii "weird.zoekt", ascii "foo_v2.zoekt"] (fun _ => some 7) []
    ⟨false, [(ascii "weird.zoekt", 7), (ascii "foo_v2.zoekt", 7)], [],
      [ascii "foo_v2.zoekt", ascii "weird.zoekt"]⟩
    (by decide) (ascii "weird.zoekt") (by decide) (by decide) (by decide)
    (by
      intro q hq v hqv _
      simp only [List.mem_cons, List.mem_singleton, List.not_mem_nil, or_false] at hq
      rcases hq with rfl | rfl
      · have e : versionFromPath (ascii "weird.zoekt") = some (ascii "weird.zoekt", 0) := by
          decide
        rw [e] at hqv
        cases hqv
        exact le_refl 0
      · have e : versionFromPath (ascii "foo_v2.zoekt") = some (ascii "foo", 2) := by decide
        rw [e] at hqv
        have : ascii "foo" = ascii "weird.zoekt" := (Prod.mk.inj (Option.some.inj hqv)).1
        exact absurd this (by decide))

/-- C16: in the calls of one scan no `load` comes before a `drop`. -/
theorem drops_before_loads (supported : Int) (glob : Option (List GoString))
    (lstat : GoString → Option Time) (R : GoMap Time) (r : ScanResult)
    (_h : scan supported glob lstat R = some r) (i j : Nat) (p q : GoString)
    (hi : r.calls[i]? = some (Call.load p)) (hj : r.calls[j]? = some (Call.drop q)) :
    j < i := by
  unfold ScanResult.calls at hi hj
  by_cases h1 : i < (r.toDrop.map Call.drop).length
  · rw [List.getElem?_append_left h1] at hi
    rw [List.getElem?_map] at hi
    cases hd : r.toDrop[i]? with
    | none => simp [hd] at hi
    | some x => simp [hd] at hi
  · by_cases h2 : j < (r.toDrop.map Call.drop).length
    · omega
    · rw [List.getElem?_append_right (by omega)] at hj
      rw [List.getElem?_map] at hj
      cases hl : r.toLoad[j - (r.toDrop.map Call.drop).length]? with
      | none => simp [hl] at hj
      | some x => simp [hl] at hj

/-- Witness of C16: `foo_v1.zoekt` is dropped and `foo_v2.zoekt` loaded. -/
theorem drops_before_loads_witness :
    (scan 16 (some [ascii "foo_v1.zoekt", ascii "foo_v2.zoekt"]) (fun _ => some 7)
        [(ascii "foo_v1.zoekt", 5)]).map ScanResult.calls =
      some [Call.drop (ascii "foo_v1.zoekt"), Call.load (ascii "foo_v2.zoekt")] ∧ 0 < 1 :=
  ⟨by decide,
    drops_before_loads 16 (some [ascii "foo_v1.zoekt", ascii "foo_v2.zoekt"]) (fun _ => some 7)
      [(ascii "foo_v1.zoekt", 5)]
      ⟨false, [(ascii "foo_v2.zoekt", 7)], [ascii "foo_v1.zoekt"], [ascii "foo_v2.zoekt"]⟩
      (by decide) 1 0 (ascii "foo_v2.zoekt") (ascii "foo_v1.zoekt") (by decide) (by decide)⟩

/-! ## A stat failure and an absent file -/

theorem passes_filter (supported : Int) (fs : List GoString) (p : GoString)
    (L L' : GoMap Int) (hL : latestLoop supported fs [] = some L)
    (hL' : latestLoop supported (fs.filter (fun f => !decide (f = p))) [] = some L')
    (np : GoString) (vp : Int) (hp : versionFromPath p = some (np, vp))
    (hsel : mapIndex L np = vp)
    (H : ∀ q ∈ fs, q ≠ p → ∀ w, versionFromPath q = some (np, w) → w = vp)
    (q : GoString) (hq : q ∈ fs) (hne : q ≠ p) : passes L q = passes L' q := by
  have hq' : q ∈ fs.filter (fun f => !decide (f = p)) := by
    rw [List.mem_filter]
    exact ⟨hq, by simp [hne]⟩
  have hres : (versionFromPath q).isSome = true :=
    (latestLoop_isSome supported fs []).1 (by rw [hL]; rfl) q hq
  obtain ⟨⟨n, w⟩, hqv⟩ := Option.isSome_iff_exists.1 hres
  have hA : mapIndex L' n ≤ mapIndex L n := by
    have hm := latestLoop_mono supported fs [] L hL n
    rw [mapIndex_nil] at hm
    rcases latestLoop_attained supported _ [] L' hL' n with h0 | ⟨fn, hfn, hfv, hle⟩
    · rw [h0, mapIndex_nil]
      exact hm
    · exact latestLoop_upper supported fs [] L hL fn (List.mem_filter.1 hfn).1 n _ hfv hle
  have hm' := latestLoop_mono supported _ [] L' hL' n
  rw [mapIndex_nil] at hm'
  have heq : mapIndex L n = w ↔ mapIndex L' n = w := by
    by_cases hn : n = np
    · subst hn
      have hw : w = vp := H q hq hne w hqv
      subst hw
      have hge : w ≤ mapIndex L' n := by
        rcases latestLoop_attained supported fs [] L hL n with h0 | ⟨fn, _, _, hle⟩
        · rw [mapIndex_nil] at h0
          omega
        · exact latestLoop_upper supported _ [] L' hL' q hq' n w hqv (by omega)
      constructor
      · intro _
        omega
      · intro _
        exact hsel
    · have hB : mapIndex L n ≤ mapIndex L' n := by
        rcases latestLoop_attained supported fs [] L hL n with h0 | ⟨fn, hfn, hfv, hle⟩
        · rw [h0, mapIndex_nil]
          exact hm'
        · have hfp : fn ≠ p := by
            intro e
            rw [e, hp] at hfv
            exact hn (Prod.mk.inj (Option.some.inj hfv)).1.symm
          have hfn' : fn ∈ fs.filter (fun f => !decide (f = p)) := by
            rw [List.mem_filter]
            exact ⟨hfn, by simp [hfp]⟩
          exact latestLoop_upper supported _ [] L' hL' fn hfn' n _ hfv hle
      have : mapIndex L n = mapIndex L' n := le_antisymm hB hA
      rw [this]
  simp only [passes, hqv]
  by_cases hc : mapIndex L n = w
  · simp [hc, heq.1 hc]
  · have hc' : ¬ mapIndex L' n = w := fun hh => hc (heq.2 hh)
    simp [hc, hc']

theorem statLoop_filter (L L' : GoMap Int) (lstat : GoString → Option Time) (p : GoString)
    (hstat : lstat p = none) (hres : (versionFromPath p).isSome = true)
    (l : List GoString) (hpass : ∀ q ∈ l, q ≠ p → passes L q = passes L' q)
    (ts : GoMap Time) :
    statLoop L lstat l ts = statLoop L' lstat (l.filter (fun f => !decide (f = p))) ts := by
  induction l generalizing ts with
  | nil => rfl
  | cons fn l ih =>
    have ih' := fun ts' =>
      ih (fun q hq hne => hpass q (List.mem_cons_of_mem _ hq) hne) ts'
    by_cases e : fn = p
    · subst e
      obtain ⟨nv, hv⟩ := Option.isSome_iff_exists.1 hres
      have hstep : statStep L lstat ts fn = ts := by
        unfold statStep
        rw [hstat]
        split_ifs <;> rfl
      rw [statLoop_cons, hv]
      simp only [hstep]
      rw [ih' ts]
      simp [List.filter_cons]
    · have hstep : statStep L lstat ts fn = statStep L' lstat ts fn := by
        unfold statStep
        rw [hpass fn (List.mem_cons_self _ _) e]
      have hf : (fn :: l).filter (fun f => !decide (f = p)) =
          fn :: l.filter (fun f => !decide (f = p)) := by
        simp [List.filter_cons, e]
      rw [hf, statLoop_cons, statLoop_cons, hstep]
      cases versionFromPath fn with
      | none => rfl
      | some nv => exact ih' _

/-- C12 as stated fails: with `foo_v2.zoekt` selected and its stat failing,
the scan loads nothing, while a scan of the listing without `foo_v2.zoekt`
selects and loads `foo_v1.zoekt`. -/
theorem stat_failure_counterexample :
    selected 16 [ascii "foo_v1.zoekt", ascii "foo_v2.zoekt"] (ascii "foo_v2.zoekt") = true ∧
      (scan 16 (some [ascii "foo_v1.zoekt", ascii "foo_v2.zoekt"])
        (fun f => if f = ascii "foo_v2.zoekt" then none else some 7) []).map
          (fun r => r.toLoad) = some [] ∧
      (scan 16 (some [ascii "foo_v1.zoekt"])
        (fun f => if f = ascii "foo_v2.zoekt" then none else some 7) []).map
          (fun r => r.toLoad) = some [ascii "foo_v1.zoekt"] := by
  decide

/-- C12, as the code has it: when the stat of a selected path `p` fails, the
scan gives the result of a scan of the listing without `p`, provided every
other listed file with the logical name of `p` has the version of `p`. -/
theorem stat_failure_as_absent (supported : Int) (fs : List GoString)
    (lstat : GoString → Option Time) (R : GoMap Time) (p : GoString)
    (hsel : selected supported fs p = true) (hstat : lstat p = none)
    (H : ∀ q ∈ fs, q ≠ p → ∀ n v w, versionFromPath p = some (n, v) →
      versionFromPath q = some (n, w) → w = v) :
    scan supported (some fs) lstat R =
      scan supported (some (fs.filter (fun f => !decide (f = p)))) lstat R := by
  obtain ⟨L, hL, np, vp, hp, hidx⟩ := (selected_iff supported fs p).1 hsel
  have hall := (latestLoop_isSome supported fs []).1 (by rw [hL]; rfl)
  have hsome' : (latestLoop supported (fs.filter (fun f => !decide (f = p))) []).isSome = true :=
    (latestLoop_isSome supported _ []).2 (fun fn hfn => hall fn (List.mem_filter.1 hfn).1)
  obtain ⟨L', hL'⟩ := Option.isSome_iff_exists.1 hsome'
  have hpass : ∀ q ∈ fs, q ≠ p → passes L q = passes L' q :=
    passes_filter supported fs p L L' hL hL' np vp hp hidx
      (fun q hq hne w hqv => H q hq hne np vp w hp hqv)
  have hts : scanTimes supported fs lstat =
      scanTimes supported (fs.filter (fun f => !decide (f = p))) lstat := by
    unfold scanTimes
    rw [hL, hL']
    exact statLoop_filter L L' lstat p hstat (by rw [hp]; rfl) fs hpass []
  unfold scan
  simp only [hts]

/-- Witness of C12 as amended: the stat of the only file of `foo` fails. -/
theorem stat_failure_as_absent_witness :
    scan 16 (some [ascii "bar_v1.zoekt", ascii "foo_v2.zoekt"])
        (fun f => if f = ascii "foo_v2.zoekt" then none else some 7) [] =
      scan 16 (some ([ascii "bar_v1.zoekt", ascii "foo_v2.zoekt"].filter
          (fun f => !decide (f = ascii "foo_v2.zoekt"))))
        (fun f => if f = ascii "foo_v2.zoekt" then none else some 7) [] :=
  stat_failure_as_absent 16 [ascii "bar_v1.zoekt", ascii "foo_v2.zoekt"]
    (fun f => if f = ascii "foo_v2.zoekt" then none else some 7) [] (ascii "foo_v2.zoekt")
    (by decide) (by decide)
    (by
      intro q hq hne n v w hp hqv
      simp only [List.mem_cons, List.mem_singleton, List.not_mem_nil, or_false] at hq
      rcases hq with rfl | rfl
      · have e1 : versionFromPath (ascii "foo_v2.zoekt") = some (ascii "foo", 2) := by decide
        have e2 : versionFromPath (ascii "bar_v1.zoekt") = some (ascii "bar", 1) := by decide
        rw [e1] at hp
        rw [e2] at hqv
        have h1 : ascii "foo" = n := (Prod.mk.inj (Option.some.inj hp)).1
        have h2 : ascii "bar" = n := (Prod.mk.inj (Option.some.inj hqv)).1
        exact absurd (h1.trans h2.symm) (by decide)
      · exact absurd rfl hne)

/-! ## `Close` -/

/-- A `Close` on a watcher whose field `quit` is `nil` does nothing. -/
theorem closeCalls_nil (n : Nat) (sw : QuitState) (h : sw.quit = none) :
    closeCalls n sw = some (List.replicate n none, sw) := by
  induction n with
  | zero => rfl
  | succ n ih =>
    have hc : Close sw = some (none, sw) := by
      unfold Close
      rw [h]
    rw [closeCalls, hc]
    simp only [ih, List.replicate_succ]

/-- C15: on a watcher whose field `quit` holds an open channel, the first
`Close` closes the channel and sets the field to `nil`; any number of calls
one after the other close the channel once in all, every call returns a nil
error, and none panics. -/
theorem close_idempotent (ch : Chan) (closed closes : List Chan) (hopen : ch ∉ closed)
    (n : Nat) :
    Close ⟨some ch, closed, closes⟩ = some (none, ⟨none, ch :: closed, closes ++ [ch]⟩) ∧
      closeCalls (n + 1) ⟨some ch, closed, closes⟩ =
        some (List.replicate (n + 1) none, ⟨none, ch :: closed, closes ++ [ch]⟩) ∧
      Close ⟨none, ch :: closed, closes ++ [ch]⟩ =
        some (none, ⟨none, ch :: closed, closes ++ [ch]⟩) := by
  have hc : Close ⟨some ch, closed, closes⟩ =
      some (none, ⟨none, ch :: closed, closes ++ [ch]⟩) := by
    simp [Close, hopen]
  refine ⟨hc, ?_, rfl⟩
  rw [closeCalls, hc]
  simp only [closeCalls_nil n ⟨none, ch :: closed, closes ++ [ch]⟩ rfl, List.replicate_succ]

/-- Witness of C15: two calls of `Close` on a new watcher. -/
theorem close_idempotent_witness :
    Close ⟨some 0, [], []⟩ = some (none, ⟨none, [0], [0]⟩) ∧
      closeCalls 2 ⟨some 0, [], []⟩ = some ([none, none], ⟨none, [0], [0]⟩) ∧
      Close ⟨none, [0], [0]⟩ = some (none, ⟨none, [0], [0]⟩) :=
  close_idempotent 0 [] [] (by decide) 1

/-! ## The two loops of `watch` -/

theorem watchStep_inv (s s' : WatchState) (a : WatchAction) (h : watchStep s a = some s')
    (h1 : s.signal ≤ signalCap) (h2 : s.scanning ≤ 1) :
    s'.signal ≤ signalCap ∧ s'.scanning ≤ 1 := by
  cases a <;> simp only [watchStep] at h <;> split_ifs at h <;> cases h <;>
    constructor <;> first | omega | (simp only; omega)

theorem watchRun_inv (acts : List WatchAction) (s s' : WatchState)
    (h : watchRun acts s = some s') (h1 : s.signal ≤ signalCap) (h2 : s.scanning ≤ 1) :
    s'.signal ≤ signalCap ∧ s'.scanning ≤ 1 := by
  induction acts generalizing s with
  | nil =>
    simp only [watchRun, Option.some.injEq] at h
    subst h
    exact ⟨h1, h2⟩
  | cons a as ih =>
    rw [watchRun] at h
    cases hs : watchStep s a with
    | none => simp [hs] at h
    | some t =>
      simp only [hs] at h
      obtain ⟨i1, i2⟩ := watchStep_inv s t a hs h1 h2
      exact ih t h i1 i2

/-- An event starts no scan. -/
theorem watchRun_events (n : Nat) (s s' : WatchState)
    (h : watchRun (List.replicate n WatchAction.event) s = some s') :
    s'.scanning = s.scanning ∧ s'.started = s.started := by
  induction n generalizing s with
  | zero =>
    simp only [List.replicate_zero, watchRun, Option.some.injEq] at h
    subst h
    exact ⟨rfl, rfl⟩
  | succ n ih =>
    rw [List.replicate_succ, watchRun] at h
    cases hs : watchStep s WatchAction.event with
    | none => simp [hs] at h
    | some t =>
      simp only [hs] at h
      obtain ⟨i1, i2⟩ := ih t h
      simp only [watchStep] at hs
      split_ifs at hs <;> cases hs <;> exact ⟨i1, i2⟩

/-- Without a new event, no more scans start than requests are pending. -/
theorem watchRun_started (acts : List WatchAction) (s s' : WatchState)
    (hne : WatchAction.event ∉ acts) (h : watchRun acts s = some s') :
    s'.started + s'.signal ≤ s.started + s.signal := by
  induction acts generalizing s with
  | nil =>
    simp only [watchRun, Option.some.injEq] at h
    subst h
    exact le_refl _
  | cons a as ih =>
    rw [watchRun] at h
    simp only [List.mem_cons, not_or] at hne
    cases hs : watchStep s a with
    | none => simp [hs] at h
    | some t =>
      simp only [hs] at h
      have i1 := ih t hne.2 h
      have i2 : t.started + t.signal ≤ s.started + s.signal := by
        cases a with
        | event => exact absurd rfl hne.1
        | error =>
          simp only [watchStep] at hs
          split_ifs at hs
          cases hs
          exact le_refl _
        | quit =>
          simp only [watchStep] at hs
          split_ifs at hs
          cases hs
          exact le_refl _
        | startScan =>
          simp only [watchStep] at hs
          split_ifs at hs
          cases hs
          simp only
          omega
        | finishScan =>
          simp only [watchStep] at hs
          split_ifs at hs
          cases hs
          exact le_refl _
        | endRescan =>
          simp only [watchStep] at hs
          split_ifs at hs
          cases hs
          exact le_refl _
      omega

/-- C17: in every run of the two loops of `watch`, `signal` holds at most one
pending request and at most one scan is in progress; a burst of events, of
any length, starts no scan and leaves at most one request pending, and until
the next event at most one more scan starts. -/
theorem debounce_collapsing (acts : List WatchAction) (s : WatchState)
    (h : watchRun acts WatchState.init = some s) :
    s.signal ≤ 1 ∧ s.scanning ≤ 1 ∧
      ∀ (n : Nat) (s' : WatchState),
        watchRun (List.replicate n WatchAction.event) s = some s' →
        s'.signal ≤ 1 ∧ s'.scanning = s.scanning ∧ s'.started = s.started ∧
          ∀ (acts' : List WatchAction) (s'' : WatchState), WatchAction.event ∉ acts' →
            watchRun acts' s' = some s'' → s''.started ≤ s.started + 1 := by
  obtain ⟨h1, h2⟩ := watchRun_inv acts WatchState.init s h (by decide) (by decide)
  refine ⟨h1, h2, ?_⟩
  intro n s' hn
  obtain ⟨j1, _⟩ := watchRun_inv _ s s' hn h1 h2
  obtain ⟨k1, k2⟩ := watchRun_events n s s' hn
  refine ⟨j1, k1, k2, ?_⟩
  intro acts' s'' hne hrun
  have := watchRun_started acts' s' s'' hne hrun
  have hcap : signalCap = 1 := rfl
  omega

/-- Witness of C17: five events while a scan is in progress. -/
theorem debounce_collapsing_witness :
    (1 : Nat) ≤ 1 ∧
      watchRun (List.replicate 5 WatchAction.event) ⟨0, false, 1, 1, false⟩ =
        some ⟨1, false, 1, 1, false⟩ ∧
      watchRun [WatchAction.finishScan, WatchAction.startScan, WatchAction.finishScan]
        ⟨1, false, 1, 1, false⟩ = some ⟨0, false, 0, 2, false⟩ ∧
      watchStep ⟨0, false, 0, 2, false⟩ WatchAction.startScan = none ∧ 2 ≤ 1 + 1 :=
  ⟨((debounce_collapsing [WatchAction.event, WatchAction.startScan]
      ⟨0, false, 1, 1, false⟩ (by decide)).2.1),
    by decide, by decide, by decide,
    ((debounce_collapsing [WatchAction.event, WatchAction.startScan]
      ⟨0, false, 1, 1, false⟩ (by decide)).2.2 5 ⟨1, false, 1, 1, false⟩ (by decide)).2.2.2
      [WatchAction.finishScan, WatchAction.startScan, WatchAction.finishScan]
      ⟨0, false, 0, 2, false⟩ (by decide) (by decide)⟩

/-! ## The bounded loads of `scan` -/

/-- Every value in `throttle` belongs to a goroutine that has not received
yet or to the final loop; no path is lost or loaded twice. -/
theorem throttleStep_inv (cap : Nat) (toLoad : List GoString) (s s' : LoadState)
    (a : LoadAction) (h : throttleStep cap s a = some s')
    (i1 : s.throttle = s.loading.length + s.releasing.length + s.filled)
    (i2 : s.throttle ≤ cap)
    (i3 : ∀ p, s.pending.count p + s.loading.count p + s.loaded.count p = toLoad.count p)
    (i4 : s.returned = true → s.pending = [] ∧ s.filled = cap) :
    s'.throttle = s'.loading.length + s'.releasing.length + s'.filled ∧
      s'.throttle ≤ cap ∧
      (∀ p, s'.pending.count p + s'.loading.count p + s'.loaded.count p = toLoad.count p) ∧
      (s'.returned = true → s'.pending = [] ∧ s'.filled = cap) := by
  cases a with
  | dispatch =>
    simp only [throttleStep] at h
    cases hp : s.pending with
    | nil => simp [hp] at h
    | cons t rest =>
      simp only [hp] at h
      split_ifs at h with hc
      cases h
      refine ⟨?_, ?_, ?_, ?_⟩
      · simp only [List.length_cons]
        omega
      · simp only
        omega
      · intro p
        have := i3 p
        rw [hp] at this
        simp only [List.count_cons] at this ⊢
        omega
      · intro hr
        have := (i4 hr).1
        rw [hp] at this
        cases this
  | loadReturns k =>
    simp only [throttleStep] at h
    split_ifs at h with hk
    cases h
    have hlen := List.length_erase_of_mem hk
    have hpos : 0 < s.loading.length := List.length_pos_of_mem hk
    refine ⟨?_, i2, ?_, i4⟩
    · simp only [List.length_cons]
      omega
    · intro p
      have := i3 p
      simp only [List.count_cons, List.count_erase]
      by_cases e : k = p
      · subst e
        have hc : 0 < s.loading.count k := List.count_pos_iff.2 hk
        simp only [beq_self_eq_true, if_true]
        omega
      · have e' : (k == p) = false := by simpa using e
        simp only [e', Bool.false_eq_true, if_false]
        omega
  | release k =>
    simp only [throttleStep] at h
    split_ifs at h with hk
    cases h
    have hlen := List.length_erase_of_mem hk.1
    have hpos : 0 < s.releasing.length := List.length_pos_of_mem hk.1
    refine ⟨?_, ?_, i3, i4⟩
    · simp only
      omega
    · simp only
      omega
  | fill =>
    simp only [throttleStep] at h
    split_ifs at h with hk
    cases h
    refine ⟨?_, ?_, i3, ?_⟩
    · simp only
      omega
    · simp only
      omega
    · intro hr
      simp only at hr
      rw [hk.2.1] at hr
      cases hr
  | ret =>
    simp only [throttleStep] at h
    split_ifs at h with hk
    cases h
    exact ⟨i1, i2, i3, fun _ => ⟨hk.1, hk.2.2⟩⟩

theorem throttleRun_inv (cap : Nat) (toLoad : List GoString) (acts : List LoadAction)
    (s s' : LoadState) (h : throttleRun cap acts s = some s')
    (i1 : s.throttle = s.loading.length + s.releasing.length + s.filled)
    (i2 : s.throttle ≤ cap)
    (i3 : ∀ p, s.pending.count p + s.loading.count p + s.loaded.count p = toLoad.count p)
    (i4 : s.returned = true → s.pending = [] ∧ s.filled = cap) :
    s'.throttle = s'.loading.length + s'.releasing.length + s'.filled ∧
      s'.throttle ≤ cap ∧
      (∀ p, s'.pending.count p + s'.loading.count p + s'.loaded.count p = toLoad.count p) ∧
      (s'.returned = true → s'.pending = [] ∧ s'.filled = cap) := by
  induction acts generalizing s with
  | nil =>
    simp only [throttleRun, Option.some.injEq] at h
    subst h
    exact ⟨i1, i2, i3, i4⟩
  | cons a as ih =>
    rw [throttleRun] at h
    cases hs : throttleStep cap s a with
    | none => simp [hs] at h
    | some t =>
      simp only [hs] at h
      obtain ⟨j1, j2, j3, j4⟩ := throttleStep_inv cap toLoad s t a hs i1 i2 i3 i4
      exact ih t h j1 j2 j3 j4

/-- C18: in every run of the end of `scan`, with `throttle` of capacity
`cap`, at most `cap` calls of `load` are in progress; once the final loop has
sent `cap` values no goroutine holds a slot; and when `scan` has returned,
every path of `toLoad` has been dispatched and its call of `load` has
returned, once. -/
theorem loads_bounded_and_joined (cap : Nat) (toLoad : List GoString)
    (acts : List LoadAction) (s : LoadState)
    (h : throttleRun cap acts (LoadState.init toLoad) = some s) :
    s.loading.length ≤ cap ∧
      (s.filled = cap → s.loading = [] ∧ s.releasing = []) ∧
      (s.returned = true →
        s.pending = [] ∧ s.loading = [] ∧ s.releasing = [] ∧
          ∀ p, s.loaded.count p = toLoad.count p) := by
  obtain ⟨j1, j2, j3, j4⟩ := throttleRun_inv cap toLoad acts (LoadState.init toLoad) s h
    rfl (Nat.zero_le _) (by intro p; simp [LoadState.init]) (by intro hr; cases hr)
  have hfull : s.filled = cap → s.loading = [] ∧ s.releasing = [] := by
    intro hf
    constructor
    · apply List.eq_nil_of_length_eq_zero
      omega
    · apply List.eq_nil_of_length_eq_zero
      omega
  refine ⟨by omega, hfull, ?_⟩
  intro hr
  obtain ⟨hp, hf⟩ := j4 hr
  obtain ⟨hl, hrel⟩ := hfull hf
  refine ⟨hp, hl, hrel, ?_⟩
  intro p
  have := j3 p
  rw [hp, hl] at this
  simpa using this

/-- Witness of C18: two loads through a channel of capacity 1. -/
theorem loads_bounded_and_joined_witness :
    throttleRun 1
        [LoadAction.dispatch, LoadAction.loadReturns (ascii "a_v1.zoekt"),
          LoadAction.release (ascii "a_v1.zoekt"), LoadAction.dispatch,
          LoadAction.loadReturns (ascii "b_v1.zoekt"), LoadAction.release (ascii "b_v1.zoekt"),
          LoadAction.fill, LoadAction.ret]
        (LoadState.init [ascii "a_v1.zoekt", ascii "b_v1.zoekt"]) =
      some ⟨1, [], [], [], [ascii "b_v1.zoekt", ascii "a_v1.zoekt"], 1, true⟩ ∧
      throttleStep 1 ⟨1, [ascii "b_v1.zoekt"], [ascii "a_v1.zoekt"], [], [], 0, false⟩
        LoadAction.dispatch = none ∧
      List.count (ascii "a_v1.zoekt") [ascii "b_v1.zoekt", ascii "a_v1.zoekt"] =
        List.count (ascii "a_v1.zoekt") [ascii "a_v1.zoekt", ascii "b_v1.zoekt"] :=
  ⟨by decide, by decide,
    ((loads_bounded_and_joined 1 [ascii "a_v1.zoekt", ascii "b_v1.zoekt"]
      [LoadAction.dispatch, LoadAction.loadReturns (ascii "a_v1.zoekt"),
        LoadAction.release (ascii "a_v1.zoekt"), LoadAction.dispatch,
        LoadAction.loadReturns (ascii "b_v1.zoekt"), LoadAction.release (ascii "b_v1.zoekt"),
        LoadAction.fill, LoadAction.ret]
      ⟨1, [], [], [], [ascii "b_v1.zoekt", ascii "a_v1.zoekt"], 1, true⟩
      (by decide)).2.2 rfl).2.2.2 (ascii "a_v1.zoekt")⟩

end Shards
